import Mathlib

/-!
# AVL tree (`avlbst.h`) and equal-depth leaf check (`equal-paths.cpp`)

A shallow embedding of the two source files.

* A pointer to an `AVLNode` is a value of `AVLTree.Tree`: `nil` is `nullptr`, and
  `node l k v b h r` is a node with left child `l`, key `k`, value `v`, stored
  `balance_` `b`, stored `height_` `h` and right child `r`.  Parent links and the
  `root_` field are implicit: an operation on a node returns the subtree that takes
  the node's place in its parent's slot (or in `root_`).
* `int8_t balance_` is an `Int` written through `wrap8`; `int height_` is an `Int`
  (32-bit overflow of a height is out of reach of any tree that fits in memory).
* An operation returns `none` where the source dereferences a null pointer and where
  the fuel of the insertion walk is exhausted.
-/

namespace AVLTree

/-- A (nullable) pointer to an `AVLNode<Key, Value>`: the fields `balance_` and
`height_` of `AVLNode` together with key, value, left and right child of its base class
`Node<Key, Value>` (declared in `bst.h`, read through `getKey`, `getLeft`, ...). -/
inductive Tree (α : Type) (β : Type) where
  | nil : Tree α β
  | node (left : Tree α β) (key : α) (value : β) (balance : Int) (height : Int)
      (right : Tree α β) : Tree α β
  deriving DecidableEq, Repr

variable {α β : Type}

/-- Conversion of an `int` to `int8_t` (two's complement, modulo 256). -/
def wrap8 (x : Int) : Int := (x + 128) % 256 - 128

/-- The constructor `AVLNode(key, value, parent)`: balance 0, height 0, no children. -/
def newNode (k : α) (v : β) : Tree α β := Tree.node Tree.nil k v 0 0 Tree.nil

/-- The test `p == nullptr`. -/
def Tree.isNil : Tree α β → Bool
  | Tree.nil => true
  | Tree.node _ _ _ _ _ _ => false

/-- `AVLNode::getBalance` (0 is returned for `nil`, where the source never calls it). -/
def getBalance : Tree α β → Int
  | Tree.nil => 0
  | Tree.node _ _ _ b _ _ => b

/-- `AVLTree::getHeight`: the stored height, `-1` for a null pointer. -/
def getHeight : Tree α β → Int
  | Tree.nil => -1
  | Tree.node _ _ _ _ h _ => h

/-- `AVLTree::updateHeight`: recompute stored height and balance from the children's
stored heights. -/
def updateHeight : Tree α β → Tree α β
  | Tree.nil => Tree.nil
  | Tree.node l k v _ _ r =>
    Tree.node l k v (wrap8 (getHeight r - getHeight l)) (max (getHeight l) (getHeight r) + 1) r

/-- `AVLTree::rotateLeft(x)`: the right child `y` takes the place of `x`; `none` when
`x` or its right child is null (the source dereferences it). -/
def rotateLeft : Tree α β → Option (Tree α β)
  | Tree.node a kx vx bx hx (Tree.node b ky vy by_ hy c) =>
    some (updateHeight (Tree.node (updateHeight (Tree.node a kx vx bx hx b)) ky vy by_ hy c))
  | _ => none

/-- `AVLTree::rotateRight(y)`: the left child `x` takes the place of `y`; `none` when
`y` or its left child is null. -/
def rotateRight : Tree α β → Option (Tree α β)
  | Tree.node (Tree.node a kx vx bx hx b) ky vy by_ hy c =>
    some (updateHeight (Tree.node a kx vx bx hx (updateHeight (Tree.node b ky vy by_ hy c))))
  | _ => none

/-- `AVLTree::rebalance(node)`. -/
def rebalance : Tree α β → Option (Tree α β)
  | Tree.nil => some Tree.nil
  | Tree.node l k v b h r =>
    if b = -2 then
      match l with
      | Tree.nil => none
      | Tree.node ll lk lv lb lh lr =>
        if lb > 0 then
          (rotateLeft (Tree.node ll lk lv lb lh lr)).bind
            (fun l' => rotateRight (Tree.node l' k v b h r))
        else rotateRight (Tree.node (Tree.node ll lk lv lb lh lr) k v b h r)
    else if b = 2 then
      match r with
      | Tree.nil => none
      | Tree.node rl rk rv rb rh rr =>
        if rb < 0 then
          (rotateRight (Tree.node rl rk rv rb rh rr)).bind
            (fun r' => rotateLeft (Tree.node l k v b h r'))
        else rotateLeft (Tree.node l k v b h (Tree.node rl rk rv rb rh rr))
    else some (Tree.node l k v b h r)

/-- One ancestor of the upward loop of `AVLTree::insert` (lines 160-172), applied to
the subtree rooted at `node`.  After a rotation `node->getParent()` is the new subtree
root, so the loop visits that root next; otherwise it moves on to the parent of
`node`.  The fuel bounds the number of consecutive visits inside this subtree. -/
def insertFix : Nat → Tree α β → Option (Tree α β)
  | 0, _ => none
  | fuel + 1, t =>
    let t1 := updateHeight t
    let balance := getBalance t1
    if balance < -1 ∨ balance > 1 then
      (rebalance t1).bind
        (fun newRoot => if balance = -2 ∨ balance = 2 then insertFix fuel newRoot else some newRoot)
    else some t1

section Ordered

variable [LinearOrder α]

/-- The descent of `AVLTree::insert` followed by its upward loop.  The flag is `false`
when the key was found (value overwritten, immediate return) and `true` when a new
node was linked in, in which case every ancestor is passed through `insertFix`. -/
def insertRec (fuel : Nat) (k : α) (v : β) : Tree α β → Option (Bool × Tree α β)
  | Tree.nil => some (true, newNode k v)
  | Tree.node l k' v' b h r =>
    if k < k' then
      match insertRec fuel k v l with
      | none => none
      | some (false, l') => some (false, Tree.node l' k' v' b h r)
      | some (true, l') => (insertFix fuel (Tree.node l' k' v' b h r)).map (fun t => (true, t))
    else if k > k' then
      match insertRec fuel k v r with
      | none => none
      | some (false, r') => some (false, Tree.node l k' v' b h r')
      | some (true, r') => (insertFix fuel (Tree.node l k' v' b h r')).map (fun t => (true, t))
    else some (false, Tree.node l k' v b h r)

/-- `AVLTree::insert(new_item)` on the tree with root `t`; the result is the new root. -/
def insert (fuel : Nat) (t : Tree α β) (k : α) (v : β) : Option (Tree α β) :=
  match t with
  | Tree.nil => some (newNode k v)
  | Tree.node l k' v' b h r => (insertRec fuel k v (Tree.node l k' v' b h r)).map Prod.snd

/-- `AVLTree::internalFind(key)`: the node found, `nil` for `nullptr`. -/
def internalFind : Tree α β → α → Tree α β
  | Tree.nil, _ => Tree.nil
  | Tree.node l k' v b h r, k =>
    if k = k' then Tree.node l k' v b h r
    else if k < k' then internalFind l k
    else internalFind r k

end Ordered

/-- The first branch of `AVLTree::predecessor` (lines 313-318), from the left child
`l` of the node: the rightmost node below `l`. -/
def rightmost : Tree α β → Tree α β
  | Tree.nil => Tree.nil
  | Tree.node l k v b h Tree.nil => Tree.node l k v b h Tree.nil
  | Tree.node _ _ _ _ _ (Tree.node rl rk rv rb rh rr) => rightmost (Tree.node rl rk rv rb rh rr)

/-- The subtree `l` with key, value, balance and stored height of its rightmost node
overwritten. -/
def setRightmost (k : α) (v : β) (b : Int) (h : Int) : Tree α β → Tree α β
  | Tree.nil => Tree.nil
  | Tree.node l _ _ _ _ Tree.nil => Tree.node l k v b h Tree.nil
  | Tree.node l k' v' b' h' (Tree.node rl rk rv rb rh rr) =>
    Tree.node l k' v' b' h' (setRightmost k v b h (Tree.node rl rk rv rb rh rr))

/-- Modelled from the spec: `BinarySearchTree::nodeSwap` of the missing `bst.h`, as
`AVLTree::remove` uses it.  The spec says of the swap with the predecessor that it
"changes which node will physically be deleted", that afterwards the "node now has ≤1
child" and that "the node ultimately destroyed must always be the one with ≤1 child,
never the original two-child node"; the source says the same (line 341 "Now node has
at most one child", line 375 "swaps two nodes using the BST helper").  So the two
nodes change places: the node found, with its key and value, stands where its
predecessor was, and the predecessor stands where the node was found.  The stored
height goes with its node; the balance goes with it too and is then exchanged back by
`AVLTree::nodeSwap` (lines 380-382), so each place keeps its balance.  The first node
is the root of the given subtree, the second its predecessor, the rightmost node of
its left subtree, as in the only call (line 338); after the call the variable `node`
denotes that rightmost place.  The tree after the call is the one in which the two
places have exchanged their (key, value) pairs, as the spec describes the primitive. -/
def nodeSwap : Tree α β → Tree α β
  | Tree.nil => Tree.nil
  | Tree.node l k v b h r =>
    match rightmost l with
    | Tree.nil => Tree.node l k v b h r
    | Tree.node _ pk pv pb ph _ => Tree.node (setRightmost k v pb h l) pk pv b ph r

/-- Lines 342-372 of `AVLTree::remove` inside the subtree below which `node` stands at
the rightmost place: that node has no right child, so its left child (or null) is
linked into its slot; then every ancestor inside the subtree is passed through
`updateHeight` and `rebalance`.  `none` when there is no node. -/
def unlinkRightmost : Tree α β → Option (Tree α β)
  | Tree.nil => none
  | Tree.node l _ _ _ _ Tree.nil => some l
  | Tree.node l k v b h (Tree.node rl rk rv rb rh rr) =>
    match unlinkRightmost (Tree.node rl rk rv rb rh rr) with
    | none => none
    | some r' => rebalance (updateHeight (Tree.node l k v b h r'))

section Ordered

variable [LinearOrder α]

/-- `AVLTree::remove(key)` below a subtree: the descent of `internalFind`; for the node
found, the swap with the predecessor when both children are present (lines 336-339),
the splice of `node` (lines 342-361), and the upward loop (lines 365-372), which passes
every ancestor of the spliced slot through `updateHeight` and `rebalance`.  The flag is
`false` when the key was not found (immediate return). -/
def removeRec (k : α) : Tree α β → Option (Bool × Tree α β)
  | Tree.nil => some (false, Tree.nil)
  | Tree.node l k' v b h r =>
    if k = k' then
      if !l.isNil && !r.isNil then
        match nodeSwap (Tree.node l k' v b h r) with
        | Tree.nil => none
        | Tree.node l1 k1 v1 b1 h1 r1 =>
          match unlinkRightmost l1 with
          | none => none
          | some l' =>
            (rebalance (updateHeight (Tree.node l' k1 v1 b1 h1 r1))).map (fun t => (true, t))
      else some (true, if !l.isNil then l else r)
    else if k < k' then
      match removeRec k l with
      | none => none
      | some (false, _) => some (false, Tree.node l k' v b h r)
      | some (true, l') =>
        (rebalance (updateHeight (Tree.node l' k' v b h r))).map (fun t => (true, t))
    else
      match removeRec k r with
      | none => none
      | some (false, _) => some (false, Tree.node l k' v b h r)
      | some (true, r') =>
        (rebalance (updateHeight (Tree.node l k' v b h r'))).map (fun t => (true, t))

/-- `AVLTree::remove(key)` on the tree with root `t`; the result is the new root. -/
def remove (t : Tree α β) (k : α) : Option (Tree α β) :=
  (removeRec k t).map Prod.snd

end Ordered

/-! ## Specification-level notions for the AVL tree -/

/-- The real height: edges on the longest path to a leaf, `-1` for the empty tree. -/
def height : Tree α β → Int
  | Tree.nil => -1
  | Tree.node l _ _ _ _ r => max (height l) (height r) + 1

/-- Number of nodes. -/
def size : Tree α β → Nat
  | Tree.nil => 0
  | Tree.node l _ _ _ _ r => size l + 1 + size r

/-- The in-order sequence of (key, value) pairs. -/
def inorder : Tree α β → List (α × β)
  | Tree.nil => []
  | Tree.node l k v _ _ r => inorder l ++ (k, v) :: inorder r

/-- The in-order sequence of keys. -/
def keys : Tree α β → List α
  | Tree.nil => []
  | Tree.node l k _ _ _ r => keys l ++ k :: keys r

/-- BST-order invariant: at every node, every key of the left subtree is strictly less
than the node's key and every key of the right subtree is strictly greater. -/
def BST [LT α] : Tree α β → Prop
  | Tree.nil => True
  | Tree.node l k _ _ _ r => BST l ∧ BST r ∧ (∀ x ∈ keys l, x < k) ∧ (∀ x ∈ keys r, k < x)

/-- Every node's stored height is its real height. -/
def HeightOk : Tree α β → Prop
  | Tree.nil => True
  | Tree.node l _ _ _ h r => HeightOk l ∧ HeightOk r ∧ h = max (height l) (height r) + 1

/-- Every node's stored balance is in `{-1, 0, 1}` and equals
`height(right) - height(left)`. -/
def BalanceOk : Tree α β → Prop
  | Tree.nil => True
  | Tree.node l _ _ b _ r =>
    BalanceOk l ∧ BalanceOk r ∧ b = height r - height l ∧ -1 ≤ b ∧ b ≤ 1

/-- The AVL invariant: stored heights are the real heights and every balance is in
range and exact. -/
def AVLInv (t : Tree α β) : Prop := HeightOk t ∧ BalanceOk t

/-- The tree `t` with the value stored under key `k` replaced by `v`, everything else
(shape, keys, other values, balances, heights) kept. -/
def overwrite [DecidableEq α] (k : α) (v : β) : Tree α β → Tree α β
  | Tree.nil => Tree.nil
  | Tree.node l k' v' b h r =>
    Tree.node (overwrite k v l) k' (if k' = k then v else v') b h (overwrite k v r)

/-- A sequence of operations on the tree: `(true, k, v)` is `insert((k, v))` and
`(false, k, _)` is `remove(k)`. -/
def runOps [LinearOrder α] (fuel : Nat) : List (Bool × α × β) → Tree α β → Option (Tree α β)
  | [], t => some t
  | (true, k, v) :: ops, t => (insert fuel t k v).bind (runOps fuel ops)
  | (false, k, _) :: ops, t => (remove t k).bind (runOps fuel ops)

end AVLTree

/-! ## `equal-paths.cpp` -/

namespace EqualPaths

/-- Modelled from the spec: the `struct Node` declared in the missing header
`equal-paths.h`, "a plain binary tree (no ordering, no balance)".  `checkPaths` reads
only the fields `left` and `right`; the key stands for the payload it never reads.
`nil` is `nullptr`. -/
inductive Node where
  | nil : Node
  | node (left : Node) (key : Int) (right : Node) : Node
  deriving DecidableEq, Repr

/-- The test `p == nullptr`. -/
def Node.isNil : Node → Bool
  | Node.nil => true
  | Node.node _ _ _ => false

/-- `checkPaths(node, currentDepth, leafDepth)`: the result and the final content of
the by-reference parameter `leafDepth`.  The right subtree is only visited when the
left check returned `true` (`&&`). -/
def checkPaths : Node → Int → Int → Bool × Int
  | Node.nil, _, leafDepth => (true, leafDepth)
  | Node.node l _ r, currentDepth, leafDepth =>
    if l.isNil && r.isNil then
      if leafDepth = -1 then (true, currentDepth)
      else (decide (currentDepth = leafDepth), leafDepth)
    else
      match checkPaths l (currentDepth + 1) leafDepth with
      | (true, leafDepth1) => checkPaths r (currentDepth + 1) leafDepth1
      | (false, leafDepth1) => (false, leafDepth1)

/-- `equalPaths(root)`. -/
def equalPaths (root : Node) : Bool := (checkPaths root 0 (-1)).1

/-- The depths of the leaves (nodes without children) of a tree whose root is at depth
`d`, from left to right. -/
def leafDepths : Node → Int → List Int
  | Node.nil, _ => []
  | Node.node l _ r, d =>
    if l.isNil && r.isNil then [d] else leafDepths l (d + 1) ++ leafDepths r (d + 1)

/-- All leaves of the tree are at the same depth from the root. -/
def SameLeafDepth (t : Node) : Prop :=
  ∀ x ∈ leafDepths t 0, ∀ y ∈ leafDepths t 0, x = y

/-- A single node. -/
def leaf (k : Int) : Node := Node.node Node.nil k Node.nil

/-- The complete tree of depth 2: a root, two children and four grandchildren. -/
def complete2 : Node :=
  Node.node (Node.node (leaf 1) 2 (leaf 3)) 4 (Node.node (leaf 5) 6 (leaf 7))

end EqualPaths


/-! ## Concrete inputs -/

namespace AVLTree

/-- The tree with keys 1, 2, 3: root 2 with two leaves. -/
def tree123 : Tree Nat Nat :=
  Tree.node (newNode 1 10) 2 20 0 1 (newNode 3 30)

/-- The tree with keys 1, 2, 3, 4: root 2, left leaf 1, right child 3 with right leaf 4. -/
def tree1234 : Tree Nat Nat :=
  Tree.node (newNode 1 10) 2 20 1 2 (Tree.node Tree.nil 3 30 1 1 (newNode 4 40))

/-- The tree with keys 1, 2: root 1 with right leaf 2. -/
def tree12 : Tree Nat Nat :=
  Tree.node Tree.nil 1 10 1 1 (newNode 2 20)

/-- Insertion of the keys of a list, first key first, each with value 0. -/
def insertAll (fuel : Nat) : List Nat → Tree Nat Nat → Option (Tree Nat Nat)
  | [], t => some t
  | k :: ks, t => (insert fuel t k 0).bind (insertAll fuel ks)

end AVLTree

/-! ## Parent links and `predecessor` -/

namespace AVLTree

variable {α β : Type}

/-- One parent link seen from a node: the parent's own fields and the parent's other
subtree.  `leftOf` says that the node is the left child of that parent, `rightOf` that
it is the right child. -/
inductive Crumb (α : Type) (β : Type) where
  | leftOf (key : α) (value : β) (balance : Int) (height : Int) (right : Tree α β) : Crumb α β
  | rightOf (left : Tree α β) (key : α) (value : β) (balance : Int) (height : Int) : Crumb α β
  deriving DecidableEq, Repr

/-- A node inside a tree with consistent parent links: the subtree rooted at the node
and the chain of its parent links, nearest parent first, ending at the root. -/
abbrev Loc (α : Type) (β : Type) := Tree α β × List (Crumb α β)

/-- Lines 315-317 of `AVLTree::predecessor`: follow right children as long as there is
one. -/
def descendRight : Tree α β → List (Crumb α β) → Loc α β
  | Tree.nil, p => (Tree.nil, p)
  | Tree.node l k v b h Tree.nil, p => (Tree.node l k v b h Tree.nil, p)
  | Tree.node l k v b h (Tree.node rl rk rv rb rh rr), p =>
    descendRight (Tree.node rl rk rv rb rh rr) (Crumb.rightOf l k v b h :: p)

/-- Lines 320-325 of `AVLTree::predecessor`: climb while the node is the left child of
its parent, then return the parent (`none` for `nullptr`). -/
def climb : Tree α β → List (Crumb α β) → Option (Loc α β)
  | _, [] => none
  | t, Crumb.leftOf k v b h r :: p => climb (Tree.node t k v b h r) p
  | t, Crumb.rightOf l k v b h :: p => some (Tree.node l k v b h t, p)

/-- `AVLTree::predecessor(current)`; `none` is `nullptr`. -/
def predecessor : Loc α β → Option (Loc α β)
  | (Tree.nil, _) => none
  | (Tree.node Tree.nil k v b h r, p) => climb (Tree.node Tree.nil k v b h r) p
  | (Tree.node (Tree.node ll lk lv lb lh lr) k v b h r, p) =>
    some (descendRight (Tree.node ll lk lv lb lh lr) (Crumb.leftOf k v b h r :: p))

/-- The ancestors of a node, nearest first, each with the flag "the node lies in the
left subtree of this ancestor". -/
def ancestors : Tree α β → List (Crumb α β) → List (Bool × Loc α β)
  | _, [] => []
  | t, Crumb.leftOf k v b h r :: p =>
    (true, (Tree.node t k v b h r, p)) :: ancestors (Tree.node t k v b h r) p
  | t, Crumb.rightOf l k v b h :: p =>
    (false, (Tree.node l k v b h t, p)) :: ancestors (Tree.node l k v b h t) p

/-- The nearest ancestor for which the node lies in the left subtree (`inLeft = true`)
or in the right subtree (`inLeft = false`); `none` when there is no such ancestor. -/
def nearestAncestor (inLeft : Bool) (t : Tree α β) (p : List (Crumb α β)) :
    Option (Loc α β) :=
  ((ancestors t p).find? (fun a => a.1 == inLeft)).map Prod.snd

/-! ## The stopping variant of `insert` -/

/-- State of the upward walk in the stopping variant of `insert`. -/
inductive WalkState where
  | found : WalkState
  | walking : WalkState
  | stopped : WalkState
  deriving DecidableEq, Repr

/-- One ancestor in the variant of `insert` that, in the words of the specification,
"stops at the first rotation": heights are recomputed as in `insert`, and the walk
ends right after the first call of `rebalance`. -/
def insertStopFix (t : Tree α β) : Option (WalkState × Tree α β) :=
  let t1 := updateHeight t
  let balance := getBalance t1
  if balance < -1 ∨ balance > 1 then
    (rebalance t1).map (fun newRoot => (WalkState.stopped, newRoot))
  else some (WalkState.walking, t1)

section Ordered

variable [LinearOrder α]

/-- Descent and walk of the stopping variant: as `insertRec`, except that no ancestor
is visited once the walk has stopped. -/
def insertStopRec (k : α) (v : β) : Tree α β → Option (WalkState × Tree α β)
  | Tree.nil => some (WalkState.walking, newNode k v)
  | Tree.node l k' v' b h r =>
    if k < k' then
      match insertStopRec k v l with
      | none => none
      | some (WalkState.walking, l') => insertStopFix (Tree.node l' k' v' b h r)
      | some (s, l') => some (s, Tree.node l' k' v' b h r)
    else if k > k' then
      match insertStopRec k v r with
      | none => none
      | some (WalkState.walking, r') => insertStopFix (Tree.node l k' v' b h r')
      | some (s, r') => some (s, Tree.node l k' v' b h r')
    else some (WalkState.found, Tree.node l k' v b h r)

/-- The variant of `insert` that stops the upward walk after the first rebalance. -/
def insertStop (t : Tree α β) (k : α) (v : β) : Option (Tree α β) :=
  match t with
  | Tree.nil => some (newNode k v)
  | Tree.node l k' v' b h r => (insertStopRec k v (Tree.node l k' v' b h r)).map Prod.snd

/-- The result of a lookup: the value stored in the node that `internalFind` returns,
`none` when it returns `nullptr`. -/
def lookup (t : Tree α β) (k : α) : Option β :=
  match internalFind t k with
  | Tree.nil => none
  | Tree.node _ _ v _ _ _ => some v

end Ordered

/-- The node with key 3 in `tree123`, with its parent link to the root. -/
def locThree : Loc Nat Nat := (newNode 3 30, [Crumb.rightOf (newNode 1 10) 2 20 0 1])

/-- The node with key 1 in `tree123`, with its parent link to the root. -/
def locOne : Loc Nat Nat := (newNode 1 10, [Crumb.leftOf 2 20 0 1 (newNode 3 30)])

end AVLTree

namespace EqualPaths

/-- The complete tree of depth 2 with one grandchild removed, one tree for each of the
four grandchildren. -/
def prunedTrees : List Node :=
  [Node.node (Node.node Node.nil 2 (leaf 3)) 4 (Node.node (leaf 5) 6 (leaf 7)),
   Node.node (Node.node (leaf 1) 2 Node.nil) 4 (Node.node (leaf 5) 6 (leaf 7)),
   Node.node (Node.node (leaf 1) 2 (leaf 3)) 4 (Node.node Node.nil 6 (leaf 7)),
   Node.node (Node.node (leaf 1) 2 (leaf 3)) 4 (Node.node (leaf 5) 6 Node.nil)]

end EqualPaths

namespace EqualPaths

theorem leafDepths_ge (t : Node) : ∀ d x, x ∈ leafDepths t d → d ≤ x := by
  induction t with
  | nil => intro d x hx; simp [leafDepths] at hx
  | node l k r ihl ihr =>
    intro d x hx
    unfold leafDepths at hx
    split at hx
    · simp at hx; omega
    · rcases List.mem_append.mp hx with h | h
      · have := ihl _ _ h; omega
      · have := ihr _ _ h; omega

theorem leafDepths_nil_of_empty (t : Node) : ∀ d, leafDepths t d = [] → t = Node.nil := by
  induction t with
  | nil => intro d _; rfl
  | node l k r ihl ihr =>
    intro d h
    unfold leafDepths at h
    split at h
    · simp at h
    · rename_i hc
      have h1 := List.append_eq_nil.mp h
      have hl := ihl _ h1.1
      have hr := ihr _ h1.2
      subst hl; subst hr
      simp [Node.isNil] at hc

/-- With a recorded leaf depth, `checkPaths` keeps it and accepts exactly when every
leaf of the subtree lies at that depth. -/
theorem checkPaths_recorded (t : Node) : ∀ d ld, ld ≠ -1 →
    (checkPaths t d ld).2 = ld ∧
      ((checkPaths t d ld).1 = true ↔ ∀ x ∈ leafDepths t d, x = ld) := by
  induction t with
  | nil => intro d ld _; simp [checkPaths, leafDepths]
  | node l k r ihl ihr =>
    intro d ld hld
    unfold checkPaths leafDepths
    by_cases hc : (l.isNil && r.isNil) = true
    · simp only [hc, if_true, if_neg hld]
      simp
    · simp only [hc]
      obtain ⟨h2, h1⟩ := ihl (d + 1) ld hld
      obtain ⟨k2, k1⟩ := ihr (d + 1) ld hld
      rcases hcp : checkPaths l (d + 1) ld with ⟨b1, ld1⟩
      rw [hcp] at h1 h2
      simp only at h1 h2
      subst h2
      cases b1 with
      | true =>
        simp only [Bool.false_eq_true, if_false]
        refine ⟨k2, ?_⟩
        rw [k1]
        simp only [List.mem_append]
        constructor
        · intro h x hx
          rcases hx with hx | hx
          · exact h1.mp rfl x hx
          · exact h x hx
        · intro h x hx
          exact h x (Or.inr hx)
      | false =>
        simp only [Bool.false_eq_true, if_false]
        refine ⟨by first | rfl | trivial, ?_⟩
        simp only [Bool.false_eq_true, false_iff, List.mem_append]
        intro h
        have := h1.mpr (fun x hx => h x (Or.inl hx))
        simp at this

/-- Without a recorded leaf depth, `checkPaths` accepts exactly when all leaves of the
subtree share one depth, and then records the depth of the first leaf. -/
theorem checkPaths_unset (t : Node) : ∀ d, 0 ≤ d →
    (leafDepths t d = [] → checkPaths t d (-1) = (true, -1)) ∧
    (∀ x xs, leafDepths t d = x :: xs →
      ((checkPaths t d (-1)).1 = true ↔ ∀ y ∈ xs, y = x) ∧
      ((checkPaths t d (-1)).1 = true → (checkPaths t d (-1)).2 = x)) := by
  induction t with
  | nil => intro d _; simp [checkPaths, leafDepths]
  | node l k r ihl ihr =>
    intro d hd
    unfold checkPaths leafDepths
    by_cases hc : (l.isNil && r.isNil) = true
    · simp only [hc, if_true]
      simp
    · simp only [hc]
      obtain ⟨l0, l1⟩ := ihl (d + 1) (by omega)
      obtain ⟨r0, r1⟩ := ihr (d + 1) (by omega)
      simp only [Bool.false_eq_true, if_false]
      cases hL : leafDepths l (d + 1) with
      | nil =>
        rw [l0 hL]
        simp only [List.nil_append]
        exact ⟨r0, r1⟩
      | cons x xs =>
        obtain ⟨lx1, lx2⟩ := l1 x xs hL
        have hxd : d + 1 ≤ x := leafDepths_ge l (d + 1) x (by rw [hL]; simp)
        have hx1 : x ≠ -1 := by omega
        rcases hcp : checkPaths l (d + 1) (-1) with ⟨b1, ld1⟩
        rw [hcp] at lx1 lx2
        simp only at lx1 lx2
        constructor
        · intro h; simp at h
        · intro x' xs' hcons
          simp only [List.cons_append, List.cons.injEq] at hcons
          obtain ⟨hxx, hxs⟩ := hcons
          subst hxx; subst hxs
          cases b1 with
          | true =>
            have hld : ld1 = x := lx2 rfl
            subst hld
            obtain ⟨k2, k1⟩ := checkPaths_recorded r (d + 1) ld1 hx1
            simp only
            refine ⟨?_, fun _ => k2⟩
            rw [k1]
            simp only [List.mem_append]
            constructor
            · intro h y hy
              rcases hy with hy | hy
              · exact lx1.mp rfl y hy
              · exact h y hy
            · intro h y hy
              exact h y (Or.inr hy)
          | false =>
            simp only [Bool.false_eq_true, false_iff, List.mem_append, false_implies, and_true]
            intro h
            have := lx1.mpr (fun y hy => h y (Or.inl hy))
            simp at this

/-- C10: `equalPaths(root)` returns true if and only if all leaves of the tree are at
the same depth; in particular it returns true for the empty tree, for every
single-node tree and for the complete tree of depth 2. -/
theorem equalPaths_iff_sameLeafDepth :
    (∀ t : Node, equalPaths t = true ↔ SameLeafDepth t) ∧
    equalPaths Node.nil = true ∧ (∀ k : Int, equalPaths (leaf k) = true) ∧
    equalPaths complete2 = true := by
  refine ⟨?_, by decide, ?_, by decide⟩
  · intro t
    obtain ⟨h0, h1⟩ := checkPaths_unset t 0 (le_refl 0)
    unfold equalPaths SameLeafDepth
    cases hL : leafDepths t 0 with
    | nil => rw [h0 hL]; simp
    | cons x xs =>
      rw [(h1 x xs hL).1]
      constructor
      · intro h a ha b hb
        have ha' : a = x := by
          rcases List.mem_cons.mp ha with h' | h'
          · exact h'
          · exact h a h'
        have hb' : b = x := by
          rcases List.mem_cons.mp hb with h' | h'
          · exact h'
          · exact h b h'
        rw [ha', hb']
      · intro h y hy
        exact h y (List.mem_cons_of_mem _ hy) x (List.mem_cons_self _ _)
  · intro k
    simp [equalPaths, leaf, checkPaths, Node.isNil]

end EqualPaths

namespace AVLTree

variable {α β : Type}

/-! ## Basic facts -/

theorem wrap8_of_small {x : Int} (h1 : -128 ≤ x) (h2 : x < 128) : wrap8 x = x := by
  unfold wrap8; omega

theorem height_ge (t : Tree α β) : -1 ≤ height t := by
  induction t with
  | nil => simp [height]
  | node l k v b h r ihl ihr => simp only [height]; omega

theorem height_node_nonneg (l : Tree α β) (k : α) (v : β) (b h : Int) (r : Tree α β) :
    0 ≤ height (Tree.node l k v b h r) := by
  have := height_ge l
  simp only [height]; omega

theorem eq_nil_of_height {t : Tree α β} (h : height t = -1) : t = Tree.nil := by
  cases t with
  | nil => rfl
  | node l k v b h' r => have := height_node_nonneg l k v b h' r; omega

theorem getHeight_nil : getHeight (Tree.nil : Tree α β) = -1 := rfl

theorem getHeight_node (l : Tree α β) (k : α) (v : β) (b h : Int) (r : Tree α β) :
    getHeight (Tree.node l k v b h r) = h := rfl

theorem updateHeight_node (l : Tree α β) (k : α) (v : β) (b h : Int) (r : Tree α β) :
    updateHeight (Tree.node l k v b h r) =
      Tree.node l k v (wrap8 (getHeight r - getHeight l)) (max (getHeight l) (getHeight r) + 1) r :=
  rfl

theorem getHeight_eq {t : Tree α β} (h : HeightOk t) : getHeight t = height t := by
  cases t with
  | nil => rfl
  | node l k v b h' r => simp only [HeightOk] at h; simp only [getHeight_node, height]; exact h.2.2

theorem inorder_updateHeight (t : Tree α β) : inorder (updateHeight t) = inorder t := by
  cases t <;> simp [updateHeight, inorder]

theorem keys_eq_map (t : Tree α β) : keys t = (inorder t).map Prod.fst := by
  induction t with
  | nil => rfl
  | node l k v b h r ihl ihr => simp [keys, inorder, ihl, ihr]

theorem height_updateHeight (t : Tree α β) : height (updateHeight t) = height t := by
  cases t <;> simp [updateHeight, height]

theorem updateHeight_of_ok {t : Tree α β} (h1 : HeightOk t) (h2 : BalanceOk t) :
    updateHeight t = t := by
  cases t with
  | nil => rfl
  | node l k v b h r =>
    simp only [HeightOk] at h1
    simp only [BalanceOk] at h2
    obtain ⟨hl, hr, hh⟩ := h1
    obtain ⟨_, _, hb, hb1, hb2⟩ := h2
    simp only [updateHeight_node, getHeight_eq hl, getHeight_eq hr]
    have hw : wrap8 (height r - height l) = height r - height l :=
      wrap8_of_small (by omega) (by omega)
    rw [hw, ← hb, ← hh]

/-- BST-order is strict sortedness of the in-order key sequence. -/
theorem BST_iff_pairwise [Preorder α] (t : Tree α β) :
    BST t ↔ (keys t).Pairwise (fun a b => a < b) := by
  induction t with
  | nil => simp [BST, keys]
  | node l k v b h r ihl ihr =>
    simp only [BST, keys, List.pairwise_append, List.pairwise_cons, List.mem_cons, ihl, ihr]
    constructor
    · rintro ⟨h1, h2, h3, h4⟩
      refine ⟨h1, ⟨h4, h2⟩, ?_⟩
      intro a ha b hb
      rcases hb with hb | hb
      · subst hb; exact h3 a ha
      · exact lt_trans (h3 a ha) (h4 b hb)
    · rintro ⟨h1, ⟨h4, h2⟩, h5⟩
      exact ⟨h1, h2, fun x hx => h5 x hx k (Or.inl rfl), h4⟩

theorem BST_of_inorder_eq [Preorder α] {s t : Tree α β} (h : inorder s = inorder t) :
    BST s ↔ BST t := by
  rw [BST_iff_pairwise, BST_iff_pairwise, keys_eq_map, keys_eq_map, h]

end AVLTree

namespace AVLTree

variable {α β : Type}

/-- Rebalancing a node whose right subtree is higher by two. -/
theorem rebalance_right_heavy {l rl rr : Tree α β} (k : α) (v : β) (b h : Int)
    (rk : α) (rv : β) (rb rh : Int)
    (hl : HeightOk l) (hr : HeightOk (Tree.node rl rk rv rb rh rr))
    (hrb : rb = height rr - height rl) (hrb1 : -1 ≤ rb) (hrb2 : rb ≤ 1)
    (hd : height (Tree.node rl rk rv rb rh rr) = height l + 2) :
    ∃ t', rebalance (updateHeight (Tree.node l k v b h (Tree.node rl rk rv rb rh rr))) = some t' ∧
      HeightOk t' ∧
      inorder t' = inorder l ++ (k, v) :: inorder (Tree.node rl rk rv rb rh rr) ∧
      (height t' = height l + 2 ∨ height t' = height l + 3) ∧
      (BalanceOk l → BalanceOk (Tree.node rl rk rv rb rh rr) → BalanceOk t') := by
  simp only [HeightOk] at hr
  obtain ⟨hrl, hrr, hrh⟩ := hr
  simp only [height] at hd
  have hgl := getHeight_eq hl
  have hgrl := getHeight_eq hrl
  have hgrr := getHeight_eq hrr
  have hL := height_ge l
  have hRL := height_ge rl
  have hRR := height_ge rr
  have hw : wrap8 (rh - getHeight l) = 2 := by rw [hgl]; unfold wrap8; omega
  simp only [updateHeight_node, getHeight_node, hw, rebalance]
  rw [if_pos trivial]
  by_cases hneg : rb < 0
  · cases rl with
    | nil => simp only [height] at hrb; omega
    | node rll rlk rlv rlb rlh rlr =>
      simp only [HeightOk] at hrl
      obtain ⟨hrll, hrlr, hrlh⟩ := hrl
      simp only [height] at hd hrb hRL hrh
      have hgrll := getHeight_eq hrll
      have hgrlr := getHeight_eq hrlr
      have hRLL := height_ge rll
      have hRLR := height_ge rlr
      simp only [hneg, rotateRight, rotateLeft, updateHeight_node, getHeight_node, Option.some_bind, if_true]
      refine ⟨_, rfl, ?_, ?_, ?_, ?_⟩
      · simp only [HeightOk, height, hgl, hgrr, hgrll, hgrlr]
        exact ⟨⟨hl, hrll, trivial⟩, ⟨hrlr, hrr, trivial⟩, trivial⟩
      · simp [inorder]
      · simp only [height]; omega
      · intro bl br
        simp only [BalanceOk, height] at br
        obtain ⟨⟨brll, brlr, e1, e2, e3⟩, brr, _⟩ := br
        simp only [BalanceOk, height, hgl, hgrr, hgrll, hgrlr]
        have w1 : wrap8 (height rll - height l) = height rll - height l :=
          wrap8_of_small (by omega) (by omega)
        have w2 : wrap8 (height rr - height rlr) = height rr - height rlr :=
          wrap8_of_small (by omega) (by omega)
        have w3 : wrap8 (max (height rlr) (height rr) + 1 - (max (height l) (height rll) + 1)) =
            max (height rlr) (height rr) + 1 - (max (height l) (height rll) + 1) :=
          wrap8_of_small (by omega) (by omega)
        rw [w1, w2, w3]
        refine ⟨⟨bl, brll, rfl, ?_, ?_⟩, ⟨brlr, brr, rfl, ?_, ?_⟩, rfl, ?_, ?_⟩ <;> omega
  · simp only [hneg, rotateLeft, updateHeight_node, getHeight_node, if_false]
    refine ⟨_, rfl, ?_, ?_, ?_, ?_⟩
    · simp only [HeightOk, height, hgl, hgrr, hgrl]
      exact ⟨⟨hl, hrl, trivial⟩, hrr, trivial⟩
    · simp [inorder]
    · simp only [height]; omega
    · intro bl br
      simp only [BalanceOk] at br
      obtain ⟨brl, brr, _⟩ := br
      simp only [BalanceOk, height, hgl, hgrr, hgrl]
      have w1 : wrap8 (height rl - height l) = height rl - height l :=
        wrap8_of_small (by omega) (by omega)
      have w3 : wrap8 (height rr - (max (height l) (height rl) + 1)) =
          height rr - (max (height l) (height rl) + 1) :=
        wrap8_of_small (by omega) (by omega)
      rw [w1, w3]
      refine ⟨⟨bl, brl, rfl, ?_, ?_⟩, brr, rfl, ?_, ?_⟩ <;> omega

end AVLTree

namespace AVLTree

variable {α β : Type}

/-- Rebalancing a node whose left subtree is higher by two. -/
theorem rebalance_left_heavy {ll lr r : Tree α β} (k : α) (v : β) (b h : Int)
    (lk : α) (lv : β) (lb lh : Int)
    (hl : HeightOk (Tree.node ll lk lv lb lh lr)) (hr : HeightOk r)
    (hlb : lb = height lr - height ll) (hlb1 : -1 ≤ lb) (hlb2 : lb ≤ 1)
    (hd : height (Tree.node ll lk lv lb lh lr) = height r + 2) :
    ∃ t', rebalance (updateHeight (Tree.node (Tree.node ll lk lv lb lh lr) k v b h r)) = some t' ∧
      HeightOk t' ∧
      inorder t' = inorder (Tree.node ll lk lv lb lh lr) ++ (k, v) :: inorder r ∧
      (height t' = height r + 2 ∨ height t' = height r + 3) ∧
      (BalanceOk (Tree.node ll lk lv lb lh lr) → BalanceOk r → BalanceOk t') := by
  simp only [HeightOk] at hl
  obtain ⟨hll, hlr, hlh⟩ := hl
  simp only [height] at hd
  have hgr := getHeight_eq hr
  have hgll := getHeight_eq hll
  have hglr := getHeight_eq hlr
  have hR := height_ge r
  have hLL := height_ge ll
  have hLR := height_ge lr
  have hw : wrap8 (getHeight r - lh) = -2 := by rw [hgr]; unfold wrap8; omega
  simp only [updateHeight_node, getHeight_node, hw, rebalance]
  rw [if_pos trivial]
  by_cases hpos : lb > 0
  · cases lr with
    | nil => simp only [height] at hlb; omega
    | node lrl lrk lrv lrb lrh lrr =>
      simp only [HeightOk] at hlr
      obtain ⟨hlrl, hlrr, hlrh⟩ := hlr
      simp only [height] at hd hlb hLR hlh
      have hglrl := getHeight_eq hlrl
      have hglrr := getHeight_eq hlrr
      have hLRL := height_ge lrl
      have hLRR := height_ge lrr
      simp only [hpos, rotateRight, rotateLeft, updateHeight_node, getHeight_node,
        Option.some_bind, if_true]
      refine ⟨_, rfl, ?_, ?_, ?_, ?_⟩
      · simp only [HeightOk, height, hgr, hgll, hglrl, hglrr]
        exact ⟨⟨hll, hlrl, trivial⟩, ⟨hlrr, hr, trivial⟩, trivial⟩
      · simp [inorder]
      · simp only [height]; omega
      · intro bl br
        simp only [BalanceOk, height] at bl
        obtain ⟨bll, ⟨blrl, blrr, e1, e2, e3⟩, _⟩ := bl
        simp only [BalanceOk, height, hgr, hgll, hglrl, hglrr]
        have w1 : wrap8 (height lrl - height ll) = height lrl - height ll :=
          wrap8_of_small (by omega) (by omega)
        have w2 : wrap8 (height r - height lrr) = height r - height lrr :=
          wrap8_of_small (by omega) (by omega)
        have w3 : wrap8 (max (height lrr) (height r) + 1 - (max (height ll) (height lrl) + 1)) =
            max (height lrr) (height r) + 1 - (max (height ll) (height lrl) + 1) :=
          wrap8_of_small (by omega) (by omega)
        rw [w1, w2, w3]
        refine ⟨⟨bll, blrl, rfl, ?_, ?_⟩, ⟨blrr, br, rfl, ?_, ?_⟩, rfl, ?_, ?_⟩ <;> omega
  · simp only [hpos, rotateRight, updateHeight_node, getHeight_node, if_false]
    refine ⟨_, rfl, ?_, ?_, ?_, ?_⟩
    · simp only [HeightOk, height, hgr, hgll, hglr]
      exact ⟨hll, ⟨hlr, hr, trivial⟩, trivial⟩
    · simp [inorder]
    · simp only [height]; omega
    · intro bl br
      simp only [BalanceOk] at bl
      obtain ⟨bll, blr, _⟩ := bl
      simp only [BalanceOk, height, hgr, hgll, hglr]
      have w1 : wrap8 (height r - height lr) = height r - height lr :=
        wrap8_of_small (by omega) (by omega)
      have w3 : wrap8 (max (height lr) (height r) + 1 - height ll) =
          max (height lr) (height r) + 1 - height ll :=
        wrap8_of_small (by omega) (by omega)
      rw [w1, w3]
      refine ⟨bll, ⟨blr, br, rfl, ?_, ?_⟩, rfl, ?_, ?_⟩ <;> omega

end AVLTree

namespace AVLTree

variable {α β : Type}

theorem getBalance_range {t : Tree α β} (h : BalanceOk t) :
    -1 ≤ getBalance t ∧ getBalance t ≤ 1 := by
  cases t with
  | nil => simp [getBalance]
  | node l k v b h' r => simp only [BalanceOk] at h; exact ⟨h.2.2.2.1, h.2.2.2.2⟩

/-- A visit of the insertion walk at a node that is already in order changes nothing. -/
theorem insertFix_of_ok (fuel : Nat) {t : Tree α β} (h1 : HeightOk t) (h2 : BalanceOk t) :
    insertFix (fuel + 1) t = some t := by
  have hb := getBalance_range h2
  rw [insertFix]
  simp only [updateHeight_of_ok h1 h2]
  rw [if_neg (by omega)]

/-- One step of the insertion walk at a node whose subtrees satisfy the AVL invariant
and differ in height by at most two. -/
theorem insertFix_spec (fuel : Nat) {l r : Tree α β} (k : α) (v : β) (b h : Int)
    (hl : AVLInv l) (hr : AVLInv r)
    (hd1 : height r - height l ≤ 2) (hd2 : -2 ≤ height r - height l) :
    ∃ t', insertFix (fuel + 2) (Tree.node l k v b h r) = some t' ∧ AVLInv t' ∧
      inorder t' = inorder l ++ (k, v) :: inorder r ∧
      (height t' = max (height l) (height r) + 1 ∨
        (height t' = max (height l) (height r) ∧
          (height r - height l = 2 ∨ height r - height l = -2))) := by
  obtain ⟨hl1, hl2⟩ := hl
  obtain ⟨hr1, hr2⟩ := hr
  have hgl := getHeight_eq hl1
  have hgr := getHeight_eq hr1
  have hL := height_ge l
  have hR := height_ge r
  by_cases hin : -1 ≤ height r - height l ∧ height r - height l ≤ 1
  · have hw : wrap8 (height r - height l) = height r - height l :=
      wrap8_of_small (by omega) (by omega)
    refine ⟨updateHeight (Tree.node l k v b h r), ?_, ?_, ?_, ?_⟩
    · rw [insertFix]
      simp only [updateHeight_node, getBalance, hgl, hgr, hw]
      rw [if_neg (by omega)]
    · simp only [updateHeight_node, hgl, hgr, hw]
      exact ⟨⟨hl1, hr1, rfl⟩, ⟨hl2, hr2, rfl, hin.1, hin.2⟩⟩
    · simp [updateHeight_node, inorder]
    · left; simp [updateHeight_node, height]
  · by_cases h2 : height r - height l = 2
    · cases r with
      | nil => simp only [height] at h2; omega
      | node rl rk rv rb rh rr =>
        have hbr := hr2
        simp only [BalanceOk] at hbr
        obtain ⟨t', e, ht1, ht2, ht3, ht4⟩ := rebalance_right_heavy k v b h rk rv rb rh hl1 hr1
          hbr.2.2.1 hbr.2.2.2.1 hbr.2.2.2.2 (by omega)
        have ht5 := ht4 hl2 hr2
        refine ⟨t', ?_, ⟨ht1, ht5⟩, ht2, ?_⟩
        · rw [insertFix]
          have hw : wrap8 (getHeight (Tree.node rl rk rv rb rh rr) - getHeight l) = 2 := by
            rw [hgl, hgr, h2]; rfl
          have hb : getBalance (updateHeight (Tree.node l k v b h (Tree.node rl rk rv rb rh rr))) = 2 := by
            rw [updateHeight_node]; simp only [getBalance]; exact hw
          simp only [hb, e, Option.some_bind]
          rw [if_pos (by decide), if_pos (by decide)]
          exact insertFix_of_ok fuel ht1 ht5
        · omega
    · have h3 : height r - height l = -2 := by omega
      cases l with
      | nil => simp only [height] at h3; omega
      | node ll lk lv lb lh lr =>
        have hbl := hl2
        simp only [BalanceOk] at hbl
        obtain ⟨t', e, ht1, ht2, ht3, ht4⟩ := rebalance_left_heavy k v b h lk lv lb lh hl1 hr1
          hbl.2.2.1 hbl.2.2.2.1 hbl.2.2.2.2 (by omega)
        have ht5 := ht4 hl2 hr2
        refine ⟨t', ?_, ⟨ht1, ht5⟩, ht2, ?_⟩
        · rw [insertFix]
          have hw : wrap8 (getHeight r - getHeight (Tree.node ll lk lv lb lh lr)) = -2 := by
            rw [hgl, hgr, h3]; rfl
          have hb : getBalance (updateHeight (Tree.node (Tree.node ll lk lv lb lh lr) k v b h r)) = -2 := by
            rw [updateHeight_node]; simp only [getBalance]; exact hw
          simp only [hb, e, Option.some_bind]
          rw [if_pos (by decide), if_pos (by decide)]
          exact insertFix_of_ok fuel ht1 ht5
        · omega

end AVLTree

namespace AVLTree

variable {α β : Type}

theorem AVLInv_newNode (k : α) (v : β) : AVLInv (newNode k v) := by
  simp [AVLInv, newNode, HeightOk, BalanceOk, height]

/-- The descent and walk of `insert` on a tree satisfying the AVL invariant return a
tree satisfying it, of the same height or one higher. -/
theorem insertRec_avl [LinearOrder α] (fuel : Nat) (k : α) (v : β) (t : Tree α β)
    (ht : AVLInv t) :
    ∃ f t', insertRec (fuel + 2) k v t = some (f, t') ∧ AVLInv t' ∧
      (f = false → height t' = height t) ∧
      height t ≤ height t' ∧ height t' ≤ height t + 1 := by
  induction t with
  | nil =>
    refine ⟨true, newNode k v, rfl, AVLInv_newNode k v, by simp, ?_, ?_⟩ <;>
      simp [newNode, height]
  | node l k' v' b h r ihl ihr =>
    obtain ⟨h1, h2⟩ := ht
    simp only [HeightOk] at h1
    simp only [BalanceOk] at h2
    obtain ⟨hl1, hr1, hh⟩ := h1
    obtain ⟨hl2, hr2, hb, hb1, hb2⟩ := h2
    by_cases hlt : k < k'
    · obtain ⟨f, l', e, hl', hf, hle1, hle2⟩ := ihl ⟨hl1, hl2⟩
      cases f with
      | false =>
        have hh' := hf rfl
        refine ⟨false, Tree.node l' k' v' b h r, ?_, ?_, ?_, ?_, ?_⟩
        · simp only [insertRec, if_pos hlt, e]
        · refine ⟨⟨hl'.1, hr1, ?_⟩, ⟨hl'.2, hr2, ?_, hb1, hb2⟩⟩
          · rw [hh']; exact hh
          · rw [hh']; exact hb
        · intro _; simp only [height, hh']
        · simp only [height, hh']; omega
        · simp only [height, hh']; omega
      | true =>
        obtain ⟨t', e', ht', _, hht⟩ := insertFix_spec fuel k' v' b h hl' ⟨hr1, hr2⟩
          (by omega) (by omega)
        refine ⟨true, t', ?_, ht', by simp, ?_, ?_⟩
        · simp only [insertRec, if_pos hlt, e, e', Option.map_some']
        · simp only [height]; omega
        · simp only [height]; omega
    · by_cases hgt : k > k'
      · obtain ⟨f, r', e, hr', hf, hle1, hle2⟩ := ihr ⟨hr1, hr2⟩
        cases f with
        | false =>
          have hh' := hf rfl
          refine ⟨false, Tree.node l k' v' b h r', ?_, ?_, ?_, ?_, ?_⟩
          · simp only [insertRec, if_neg hlt, if_pos hgt, e]
          · refine ⟨⟨hl1, hr'.1, ?_⟩, ⟨hl2, hr'.2, ?_, hb1, hb2⟩⟩
            · rw [hh']; exact hh
            · rw [hh']; exact hb
          · intro _; simp only [height, hh']
          · simp only [height, hh']; omega
          · simp only [height, hh']; omega
        | true =>
          obtain ⟨t', e', ht', _, hht⟩ := insertFix_spec fuel k' v' b h ⟨hl1, hl2⟩ hr'
            (by omega) (by omega)
          refine ⟨true, t', ?_, ht', by simp, ?_, ?_⟩
          · simp only [insertRec, if_neg hlt, if_pos hgt, e, e', Option.map_some']
          · simp only [height]; omega
          · simp only [height]; omega
      · refine ⟨false, Tree.node l k' v b h r, ?_, ⟨⟨hl1, hr1, hh⟩, ⟨hl2, hr2, hb, hb1, hb2⟩⟩,
          ?_, ?_, ?_⟩
        · simp only [insertRec, if_neg hlt, if_neg hgt]
        · intro _; simp only [height]
        · simp only [height]; omega
        · simp only [height]; omega

/-- On a tree satisfying the AVL invariant `insert` returns a tree satisfying it. -/
theorem insert_avl [LinearOrder α] (fuel : Nat) (t : Tree α β) (k : α) (v : β)
    (ht : AVLInv t) : ∃ t', insert (fuel + 2) t k v = some t' ∧ AVLInv t' := by
  cases t with
  | nil => exact ⟨newNode k v, rfl, AVLInv_newNode k v⟩
  | node l k' v' b h r =>
    obtain ⟨f, t', e, ht', _⟩ := insertRec_avl fuel k v (Tree.node l k' v' b h r) ht
    exact ⟨t', by simp only [insert, e, Option.map_some'], ht'⟩

end AVLTree

namespace AVLTree

variable {α β : Type}

/-! ## Rotations keep the in-order sequence -/

theorem rotateLeft_inorder {t t' : Tree α β} (h : rotateLeft t = some t') :
    inorder t' = inorder t := by
  cases t with
  | nil => simp [rotateLeft] at h
  | node a kx vx bx hx y =>
    cases y with
    | nil => simp [rotateLeft] at h
    | node b ky vy by_ hy c =>
      simp only [rotateLeft, Option.some.injEq] at h
      subst h
      simp [updateHeight_node, inorder]

theorem rotateRight_inorder {t t' : Tree α β} (h : rotateRight t = some t') :
    inorder t' = inorder t := by
  cases t with
  | nil => simp [rotateRight] at h
  | node x ky vy by_ hy c =>
    cases x with
    | nil => simp [rotateRight] at h
    | node a kx vx bx hx b =>
      simp only [rotateRight, Option.some.injEq] at h
      subst h
      simp [updateHeight_node, inorder]

theorem rebalance_inorder {t t' : Tree α β} (h : rebalance t = some t') :
    inorder t' = inorder t := by
  cases t with
  | nil => simp only [rebalance, Option.some.injEq] at h; subst h; rfl
  | node l k v b hh r =>
    simp only [rebalance] at h
    split at h
    · cases l with
      | nil => simp at h
      | node ll lk lv lb lh lr =>
        simp only at h
        split at h
        · cases hrot : rotateLeft (Tree.node ll lk lv lb lh lr) with
          | none => rw [hrot] at h; simp at h
          | some l' =>
            rw [hrot] at h
            simp only [Option.some_bind] at h
            rw [rotateRight_inorder h]
            simp only [inorder, rotateLeft_inorder hrot]
        · exact rotateRight_inorder h
    · split at h
      · cases r with
        | nil => simp at h
        | node rl rk rv rb rh rr =>
          simp only at h
          split at h
          · cases hrot : rotateRight (Tree.node rl rk rv rb rh rr) with
            | none => rw [hrot] at h; simp at h
            | some r' =>
              rw [hrot] at h
              simp only [Option.some_bind] at h
              rw [rotateLeft_inorder h]
              simp only [inorder, rotateRight_inorder hrot]
          · exact rotateLeft_inorder h
      · simp only [Option.some.injEq] at h; subst h; rfl

theorem insertFix_inorder (fuel : Nat) : ∀ {t t' : Tree α β},
    insertFix fuel t = some t' → inorder t' = inorder t := by
  induction fuel with
  | zero => intro t t' h; simp [insertFix] at h
  | succ n ih =>
    intro t t' h
    rw [insertFix] at h
    split at h
    · cases hreb : rebalance (updateHeight t) with
      | none => rw [hreb] at h; simp at h
      | some r =>
        rw [hreb] at h
        simp only [Option.some_bind] at h
        have hr := rebalance_inorder hreb
        rw [inorder_updateHeight] at hr
        split at h
        · rw [ih h, hr]
        · simp only [Option.some.injEq] at h; subst h; exact hr
    · simp only [Option.some.injEq] at h; subst h; exact inorder_updateHeight t

end AVLTree

namespace AVLTree

variable {α β : Type}

/-! ## Order and content of the tree after `insert` -/

theorem mem_keys_of_mem_inorder {t : Tree α β} {x : α × β} (h : x ∈ inorder t) :
    x.1 ∈ keys t := by
  rw [keys_eq_map]; exact List.mem_map_of_mem _ h

theorem exists_mem_inorder_of_mem_keys {t : Tree α β} {a : α} (h : a ∈ keys t) :
    ∃ w, (a, w) ∈ inorder t := by
  rw [keys_eq_map] at h
  obtain ⟨⟨a', w⟩, hm, rfl⟩ := List.mem_map.mp h
  exact ⟨w, hm⟩

theorem BST_of_inorder_node [Preorder α] {t l r : Tree α β} {k : α} {v : β}
    (h : inorder t = inorder l ++ (k, v) :: inorder r) (hl : BST l) (hr : BST r)
    (h1 : ∀ x ∈ keys l, x < k) (h2 : ∀ x ∈ keys r, k < x) : BST t := by
  have e : inorder t = inorder (Tree.node l k v 0 0 r) := by rw [h]; rfl
  rw [BST_of_inorder_eq e]
  exact ⟨hl, hr, h1, h2⟩

theorem insert_left_content [LinearOrder α] {l l' r t' : Tree α β} {k k' : α} {v v' : β}
    {b h : Int} (hbst : BST (Tree.node l k' v' b h r)) (hlt : k < k') (hl' : BST l')
    (hm : ∀ x, x ∈ inorder l' ↔ x = (k, v) ∨ (x ∈ inorder l ∧ x.1 ≠ k))
    (hi : inorder t' = inorder l' ++ (k', v') :: inorder r) :
    BST t' ∧ ∀ x, x ∈ inorder t' ↔
      x = (k, v) ∨ (x ∈ inorder (Tree.node l k' v' b h r) ∧ x.1 ≠ k) := by
  obtain ⟨_, hr, h1, h2⟩ := hbst
  constructor
  · refine BST_of_inorder_node hi hl' hr ?_ h2
    intro x hx
    obtain ⟨w, hw⟩ := exists_mem_inorder_of_mem_keys hx
    rcases (hm (x, w)).mp hw with e | ⟨e, _⟩
    · simp only [Prod.mk.injEq] at e; rw [e.1]; exact hlt
    · exact h1 x (mem_keys_of_mem_inorder e)
  · intro x
    rw [hi]
    simp only [inorder, List.mem_append, List.mem_cons, hm]
    constructor
    · rintro ((e | ⟨e, ne⟩) | e | e)
      · exact Or.inl e
      · exact Or.inr ⟨Or.inl e, ne⟩
      · refine Or.inr ⟨Or.inr (Or.inl e), ?_⟩
        rw [e]; exact ne_of_gt hlt
      · refine Or.inr ⟨Or.inr (Or.inr e), ?_⟩
        exact ne_of_gt (lt_trans hlt (h2 _ (mem_keys_of_mem_inorder e)))
    · rintro (e | ⟨e | e | e, ne⟩)
      · exact Or.inl (Or.inl e)
      · exact Or.inl (Or.inr ⟨e, ne⟩)
      · exact Or.inr (Or.inl e)
      · exact Or.inr (Or.inr e)

theorem insert_right_content [LinearOrder α] {l r r' t' : Tree α β} {k k' : α} {v v' : β}
    {b h : Int} (hbst : BST (Tree.node l k' v' b h r)) (hgt : k' < k) (hr' : BST r')
    (hm : ∀ x, x ∈ inorder r' ↔ x = (k, v) ∨ (x ∈ inorder r ∧ x.1 ≠ k))
    (hi : inorder t' = inorder l ++ (k', v') :: inorder r') :
    BST t' ∧ ∀ x, x ∈ inorder t' ↔
      x = (k, v) ∨ (x ∈ inorder (Tree.node l k' v' b h r) ∧ x.1 ≠ k) := by
  obtain ⟨hl, _, h1, h2⟩ := hbst
  constructor
  · refine BST_of_inorder_node hi hl hr' h1 ?_
    intro x hx
    obtain ⟨w, hw⟩ := exists_mem_inorder_of_mem_keys hx
    rcases (hm (x, w)).mp hw with e | ⟨e, _⟩
    · simp only [Prod.mk.injEq] at e; rw [e.1]; exact hgt
    · exact h2 x (mem_keys_of_mem_inorder e)
  · intro x
    rw [hi]
    simp only [inorder, List.mem_append, List.mem_cons, hm]
    constructor
    · rintro (e | e | (e | ⟨e, ne⟩))
      · refine Or.inr ⟨Or.inl e, ?_⟩
        exact ne_of_lt (lt_trans (h1 _ (mem_keys_of_mem_inorder e)) hgt)
      · refine Or.inr ⟨Or.inr (Or.inl e), ?_⟩
        rw [e]; exact ne_of_lt hgt
      · exact Or.inl e
      · exact Or.inr ⟨Or.inr (Or.inr e), ne⟩
    · rintro (e | ⟨e | e | e, ne⟩)
      · exact Or.inr (Or.inr (Or.inl e))
      · exact Or.inl e
      · exact Or.inr (Or.inl e)
      · exact Or.inr (Or.inr (Or.inr ⟨e, ne⟩))

/-- Whenever the descent and walk of `insert` return, the result is BST-ordered and
holds the inserted pair together with the old pairs of the other keys. -/
theorem insertRec_content [LinearOrder α] (fuel : Nat) (k : α) (v : β) :
    ∀ (t : Tree α β) {f : Bool} {t' : Tree α β}, BST t →
      insertRec fuel k v t = some (f, t') →
      BST t' ∧ ∀ x, x ∈ inorder t' ↔ x = (k, v) ∨ (x ∈ inorder t ∧ x.1 ≠ k) := by
  intro t
  induction t with
  | nil =>
    intro f t' _ h
    simp only [insertRec, Option.some.injEq, Prod.mk.injEq] at h
    obtain ⟨_, rfl⟩ := h
    simp [newNode, BST, keys, inorder]
  | node l k' v' b hh r ihl ihr =>
    intro f t' hbst h
    have hbst' := hbst
    obtain ⟨hl, hr, h1, h2⟩ := hbst'
    by_cases hlt : k < k'
    · simp only [insertRec, if_pos hlt] at h
      cases e : insertRec fuel k v l with
      | none => rw [e] at h; simp at h
      | some p =>
        obtain ⟨fl, l'⟩ := p
        obtain ⟨hl', hm⟩ := ihl hl e
        rw [e] at h
        cases fl with
        | false =>
          simp only [Option.some.injEq, Prod.mk.injEq] at h
          obtain ⟨_, rfl⟩ := h
          exact insert_left_content hbst hlt hl' hm rfl
        | true =>
          simp only [Option.map_eq_some', Prod.mk.injEq] at h
          obtain ⟨t'', e2, _, rfl⟩ := h
          exact insert_left_content hbst hlt hl' hm (insertFix_inorder fuel e2)
    · by_cases hgt : k > k'
      · simp only [insertRec, if_neg hlt, if_pos hgt] at h
        cases e : insertRec fuel k v r with
        | none => rw [e] at h; simp at h
        | some p =>
          obtain ⟨fr, r'⟩ := p
          obtain ⟨hr', hm⟩ := ihr hr e
          rw [e] at h
          cases fr with
          | false =>
            simp only [Option.some.injEq, Prod.mk.injEq] at h
            obtain ⟨_, rfl⟩ := h
            exact insert_right_content hbst hgt hr' hm rfl
          | true =>
            simp only [Option.map_eq_some', Prod.mk.injEq] at h
            obtain ⟨t'', e2, _, rfl⟩ := h
            exact insert_right_content hbst hgt hr' hm (insertFix_inorder fuel e2)
      · simp only [insertRec, if_neg hlt, if_neg hgt, Option.some.injEq, Prod.mk.injEq] at h
        obtain ⟨_, rfl⟩ := h
        have hk : k = k' := le_antisymm (not_lt.mp hgt) (not_lt.mp hlt)
        subst hk
        refine ⟨⟨hl, hr, h1, h2⟩, ?_⟩
        intro x
        simp only [inorder, List.mem_append, List.mem_cons]
        constructor
        · rintro (e | e | e)
          · exact Or.inr ⟨Or.inl e, ne_of_lt (h1 _ (mem_keys_of_mem_inorder e))⟩
          · exact Or.inl e
          · exact Or.inr ⟨Or.inr (Or.inr e), ne_of_gt (h2 _ (mem_keys_of_mem_inorder e))⟩
        · rintro (e | ⟨e | e | e, ne⟩)
          · exact Or.inr (Or.inl e)
          · exact Or.inl e
          · exact absurd (by rw [e]) ne
          · exact Or.inr (Or.inr e)

/-- On a BST-ordered tree `internalFind` returns the node of every stored pair. -/
theorem internalFind_of_mem [LinearOrder α] (t : Tree α β) (k : α) (v : β) (hbst : BST t)
    (hm : (k, v) ∈ inorder t) :
    ∃ l b h r, internalFind t k = Tree.node l k v b h r := by
  induction t with
  | nil => simp [inorder] at hm
  | node l k' v' b hh r ihl ihr =>
    obtain ⟨hl, hr, h1, h2⟩ := hbst
    simp only [inorder, List.mem_append, List.mem_cons, Prod.mk.injEq] at hm
    rcases hm with e | ⟨e1, e2⟩ | e
    · have hlt : k < k' := h1 _ (mem_keys_of_mem_inorder e)
      simp only [internalFind, if_neg (ne_of_lt hlt), if_pos hlt]
      exact ihl hl e
    · subst e1; subst e2
      exact ⟨l, b, hh, r, by simp only [internalFind, if_pos]⟩
    · have hgt : k' < k := h2 _ (mem_keys_of_mem_inorder e)
      simp only [internalFind, if_neg (ne_of_gt hgt), if_neg (not_lt_of_gt hgt)]
      exact ihr hr e

/-- A key that is not stored is not found. -/
theorem internalFind_of_not_mem [LinearOrder α] (t : Tree α β) (k : α)
    (hm : k ∉ keys t) : internalFind t k = Tree.nil := by
  induction t with
  | nil => rfl
  | node l k' v' b hh r ihl ihr =>
    simp only [keys, List.mem_append, List.mem_cons, not_or] at hm
    obtain ⟨m1, m2, m3⟩ := hm
    simp only [internalFind, if_neg m2]
    split
    · exact ihl m1
    · exact ihr m3

end AVLTree

namespace AVLTree

variable {α β : Type}

/-! ## Properties of `insert` -/

theorem overwrite_of_not_mem [DecidableEq α] (k : α) (v : β) (t : Tree α β)
    (h : k ∉ keys t) : overwrite k v t = t := by
  induction t with
  | nil => rfl
  | node l k' v' b hh r ihl ihr =>
    simp only [keys, List.mem_append, List.mem_cons, not_or] at h
    obtain ⟨m1, m2, m3⟩ := h
    simp only [overwrite, ihl m1, ihr m3, if_neg (Ne.symm m2)]

theorem insertRec_existing [LinearOrder α] (fuel : Nat) (k : α) (v : β) (t : Tree α β)
    (hbst : BST t) (hk : k ∈ keys t) :
    insertRec fuel k v t = some (false, overwrite k v t) := by
  induction t with
  | nil => simp [keys] at hk
  | node l k' v' b hh r ihl ihr =>
    obtain ⟨hl, hr, h1, h2⟩ := hbst
    simp only [keys, List.mem_append, List.mem_cons] at hk
    by_cases hlt : k < k'
    · have hkl : k ∈ keys l := by
        rcases hk with e | e | e
        · exact e
        · exact absurd e (ne_of_lt hlt)
        · exact absurd (h2 k e) (not_lt_of_gt hlt)
      have hkr : k ∉ keys r := fun e => absurd (h2 k e) (not_lt_of_gt hlt)
      simp only [insertRec, if_pos hlt, ihl hl hkl, overwrite, overwrite_of_not_mem k v r hkr,
        if_neg (ne_of_gt hlt)]
    · by_cases hgt : k > k'
      · have hkr : k ∈ keys r := by
          rcases hk with e | e | e
          · exact absurd (h1 k e) (not_lt_of_gt hgt)
          · exact absurd e (ne_of_gt hgt)
          · exact e
        have hkl : k ∉ keys l := fun e => absurd (h1 k e) (not_lt_of_gt hgt)
        simp only [insertRec, if_neg hlt, if_pos hgt, ihr hr hkr, overwrite,
          overwrite_of_not_mem k v l hkl, if_neg (ne_of_lt hgt)]
      · have hkk : k' = k := le_antisymm (not_lt.mp hlt) (not_lt.mp hgt)
        have hkl : k ∉ keys l := fun e => absurd (h1 k e) (by rw [hkk]; exact lt_irrefl k)
        have hkr : k ∉ keys r := fun e => absurd (h2 k e) (by rw [hkk]; exact lt_irrefl k)
        simp only [insertRec, if_neg hlt, if_neg hgt, overwrite, overwrite_of_not_mem k v l hkl,
          overwrite_of_not_mem k v r hkr, if_pos hkk]

/-- C1: on every tree satisfying the AVL invariant (stored heights are the real
heights, every balance is in {-1,0,1} and equals height(right) - height(left)),
`insert((k,v))` returns, and in the resulting tree every node has its balance in
{-1,0,1}, equal to height(right) - height(left); the stored heights are again the real
heights.  The BST-order of the tree is not needed for this. -/
theorem insert_balanced [LinearOrder α] (fuel : Nat) (t : Tree α β) (k : α) (v : β)
    (havl : AVLInv t) :
    ∃ t', insert (fuel + 2) t k v = some t' ∧ BalanceOk t' ∧ HeightOk t' := by
  obtain ⟨t', e, h1, h2⟩ := insert_avl fuel t k v havl
  exact ⟨t', e, h2, h1⟩

theorem AVLInv_tree12 : AVLInv tree12 := by
  simp [AVLInv, tree12, newNode, HeightOk, BalanceOk, height]

theorem BST_tree12 : BST tree12 := by
  simp [tree12, newNode, BST, keys]

theorem insert_balanced_witness :
    AVLInv tree12 ∧ ∃ t', insert (0 + 2) tree12 3 30 = some t' ∧ BalanceOk t' ∧ HeightOk t' :=
  ⟨AVLInv_tree12, insert_balanced 0 tree12 3 30 AVLInv_tree12⟩

/-- C3: on every tree satisfying the BST-order and AVL invariants, `insert((k,v))`
returns a tree that satisfies the BST-order invariant. -/
theorem insert_bst [LinearOrder α] (fuel : Nat) (t : Tree α β) (k : α) (v : β)
    (hbst : BST t) (havl : AVLInv t) :
    ∃ t', insert (fuel + 2) t k v = some t' ∧ BST t' := by
  cases t with
  | nil => exact ⟨newNode k v, rfl, by simp [newNode, BST, keys]⟩
  | node l k' v' b h r =>
    obtain ⟨f, t', e, _⟩ := insertRec_avl fuel k v (Tree.node l k' v' b h r) havl
    exact ⟨t', by simp only [insert, e, Option.map_some'], (insertRec_content _ k v _ hbst e).1⟩

theorem insert_bst_witness :
    BST tree12 ∧ AVLInv tree12 ∧ ∃ t', insert (0 + 2) tree12 3 30 = some t' ∧ BST t' :=
  ⟨BST_tree12, AVLInv_tree12, insert_bst 0 tree12 3 30 BST_tree12 AVLInv_tree12⟩

/-- C5: on every tree satisfying the BST-order and AVL invariants (the empty tree
included), `insert((k,v))` returns a tree in which `internalFind(k)` finds a node with
key `k` and value `v`, whether `k` was absent or present before. -/
theorem insert_then_find [LinearOrder α] (fuel : Nat) (t : Tree α β) (k : α) (v : β)
    (hbst : BST t) (havl : AVLInv t) :
    ∃ t', insert (fuel + 2) t k v = some t' ∧
      ∃ l b h r, internalFind t' k = Tree.node l k v b h r := by
  cases t with
  | nil =>
    exact ⟨newNode k v, rfl, Tree.nil, 0, 0, Tree.nil, by simp [newNode, internalFind]⟩
  | node l k' v' b h r =>
    obtain ⟨f, t', e, _⟩ := insertRec_avl fuel k v (Tree.node l k' v' b h r) havl
    obtain ⟨hb, hm⟩ := insertRec_content _ k v _ hbst e
    exact ⟨t', by simp only [insert, e, Option.map_some'],
      internalFind_of_mem t' k v hb ((hm (k, v)).mpr (Or.inl rfl))⟩

theorem insert_then_find_witness :
    BST tree12 ∧ AVLInv tree12 ∧ ∃ t', insert (0 + 2) tree12 3 30 = some t' ∧
      ∃ l b h r, internalFind t' 3 = Tree.node l 3 30 b h r :=
  ⟨BST_tree12, AVLInv_tree12, insert_then_find 0 tree12 3 30 BST_tree12 AVLInv_tree12⟩

/-- C8: on every BST-ordered tree and every key `k` already stored in it,
`insert((k,v))` returns the same tree with only the value under `k` replaced by `v`:
shape, keys, other values, stored balances and heights are unchanged (so no rotation
took place). -/
theorem insert_existing_overwrites [LinearOrder α] (fuel : Nat) (t : Tree α β) (k : α)
    (v : β) (hbst : BST t) (hk : k ∈ keys t) :
    insert fuel t k v = some (overwrite k v t) := by
  cases t with
  | nil => simp [keys] at hk
  | node l k' v' b h r =>
    simp only [insert, insertRec_existing fuel k v _ hbst hk, Option.map_some']

theorem insert_existing_overwrites_witness :
    BST tree12 ∧ 2 ∈ keys tree12 ∧ insert 2 tree12 2 99 = some (overwrite 2 99 tree12) :=
  ⟨BST_tree12, by simp [tree12, newNode, keys],
    insert_existing_overwrites 2 tree12 2 99 BST_tree12 (by simp [tree12, newNode, keys])⟩

/-! ## Properties of `remove` -/

theorem removeRec_absent [LinearOrder α] (k : α) (t : Tree α β) (hk : k ∉ keys t) :
    removeRec k t = some (false, t) := by
  induction t with
  | nil => rfl
  | node l k' v' b hh r ihl ihr =>
    simp only [keys, List.mem_append, List.mem_cons, not_or] at hk
    obtain ⟨m1, m2, m3⟩ := hk
    simp only [removeRec, if_neg m2, ihl m1, ihr m3]
    split <;> rfl

/-- C7: for every tree (the empty tree included, no invariant assumed) and every key
that is not stored in it, `remove(k)` returns the tree unchanged: same shape, keys,
values, stored balances and heights, same root. -/
theorem remove_absent_unchanged [LinearOrder α] (t : Tree α β) (k : α) (hk : k ∉ keys t) :
    remove t k = some t := by
  simp only [remove, removeRec_absent k t hk, Option.map_some']

theorem remove_absent_unchanged_witness :
    5 ∉ keys tree12 ∧ remove tree12 5 = some tree12 :=
  ⟨by simp [tree12, newNode, keys],
    remove_absent_unchanged tree12 5 (by simp [tree12, newNode, keys])⟩

end AVLTree

namespace AVLTree

variable {α β : Type}

/-! ## Helpers for `remove` -/

theorem rebalance_of_in_range (l : Tree α β) (k : α) (v : β) (b h : Int) (r : Tree α β)
    (h1 : b ≠ -2) (h2 : b ≠ 2) :
    rebalance (Tree.node l k v b h r) = some (Tree.node l k v b h r) := by
  simp only [rebalance, if_neg h1, if_neg h2]

theorem rightmost_ne_nil (l : Tree α β) (k : α) (v : β) (b h : Int) (r : Tree α β) :
    ∃ a pk pv pb ph c, rightmost (Tree.node l k v b h r) = Tree.node a pk pv pb ph c := by
  induction r generalizing l k v b h with
  | nil => exact ⟨l, k, v, b, h, Tree.nil, rfl⟩
  | node rl rk rv rb rh rr _ ihr =>
    simp only [rightmost]
    exact ihr rl rk rv rb rh

end AVLTree

namespace AVLTree

variable {α β : Type}

theorem BST_tree123 : BST tree123 := by
  simp [tree123, newNode, BST, keys]

theorem AVLInv_tree123 : AVLInv tree123 := by
  simp [AVLInv, tree123, newNode, HeightOk, BalanceOk, height]

end AVLTree

namespace EqualPaths

/-- C11 as stated fails: the complete tree of depth 2 without its first grandchild is
accepted by `equalPaths`, so the four pruned trees are not all rejected. -/
theorem pruned_not_rejected :
    equalPaths (Node.node (Node.node Node.nil 2 (leaf 3)) 4 (Node.node (leaf 5) 6 (leaf 7)))
        = true ∧
      prunedTrees.map equalPaths ≠ [false, false, false, false] := by
  decide

/-- C11 (amended): for the complete binary tree of depth 2 with any one of its four
grandchildren removed, `equalPaths(root)` returns true: the three remaining leaves are
all at depth 2, and the node that lost a child is not a leaf. -/
theorem pruned_accepted :
    prunedTrees.map equalPaths = [true, true, true, true] ∧
      prunedTrees.map (fun t => leafDepths t 0) = [[2, 2, 2], [2, 2, 2], [2, 2, 2], [2, 2, 2]] := by
  decide

end EqualPaths

namespace AVLTree

variable {α β : Type}

/-! ## Scenarios -/

/-- C12: starting from the empty tree and inserting 1, 2, ..., 7 in increasing order,
after each of the seven insertions the height of the tree is at most 3, and after the
full sequence the key of the root is 4. -/
theorem insert_one_to_seven :
    (∃ t, insertAll 2 [1] Tree.nil = some t ∧ height t ≤ 3) ∧
    (∃ t, insertAll 2 [1, 2] Tree.nil = some t ∧ height t ≤ 3) ∧
    (∃ t, insertAll 2 [1, 2, 3] Tree.nil = some t ∧ height t ≤ 3) ∧
    (∃ t, insertAll 2 [1, 2, 3, 4] Tree.nil = some t ∧ height t ≤ 3) ∧
    (∃ t, insertAll 2 [1, 2, 3, 4, 5] Tree.nil = some t ∧ height t ≤ 3) ∧
    (∃ t, insertAll 2 [1, 2, 3, 4, 5, 6] Tree.nil = some t ∧ height t ≤ 3) ∧
    (∃ t, insertAll 2 [1, 2, 3, 4, 5, 6, 7] Tree.nil = some t ∧ height t ≤ 3) ∧
    (∃ l v b h r, insertAll 2 [1, 2, 3, 4, 5, 6, 7] Tree.nil = some (Tree.node l 4 v b h r)) := by
  refine ⟨⟨_, rfl, by decide⟩, ⟨_, rfl, by decide⟩, ⟨_, rfl, by decide⟩, ⟨_, rfl, by decide⟩,
    ⟨_, rfl, by decide⟩, ⟨_, rfl, by decide⟩, ⟨_, rfl, by decide⟩, ⟨_, _, _, _, _, rfl⟩⟩

end AVLTree

namespace AVLTree

variable {α β : Type}

/-! ## Three keys in every order -/

theorem insertRec_lt [LinearOrder α] (fuel : Nat) (k : α) (v : β) (l : Tree α β) (k' : α)
    (v' : β) (b h : Int) (r : Tree α β) (hlt : k < k') :
    insertRec fuel k v (Tree.node l k' v' b h r) =
      match insertRec fuel k v l with
      | none => none
      | some (false, l') => some (false, Tree.node l' k' v' b h r)
      | some (true, l') =>
        (insertFix fuel (Tree.node l' k' v' b h r)).map (fun t => (true, t)) := by
  simp only [insertRec, if_pos hlt]

theorem insertRec_gt [LinearOrder α] (fuel : Nat) (k : α) (v : β) (l : Tree α β) (k' : α)
    (v' : β) (b h : Int) (r : Tree α β) (hgt : k' < k) :
    insertRec fuel k v (Tree.node l k' v' b h r) =
      match insertRec fuel k v r with
      | none => none
      | some (false, r') => some (false, Tree.node l k' v' b h r')
      | some (true, r') =>
        (insertFix fuel (Tree.node l k' v' b h r')).map (fun t => (true, t)) := by
  simp only [insertRec, if_neg (not_lt_of_gt hgt), if_pos (show k > k' from hgt)]

theorem insertRec_nil [LinearOrder α] (fuel : Nat) (k : α) (v : β) :
    insertRec fuel k v (Tree.nil : Tree α β) = some (true, newNode k v) := rfl

theorem insert_leaf_right [LinearOrder α] (fuel : Nat) (a b : α) (va vb : β) (hab : a < b) :
    insert (fuel + 2) (newNode a va) b vb =
      some (Tree.node Tree.nil a va 1 1 (newNode b vb)) := by
  simp only [insert, newNode, insertRec_gt _ _ _ _ _ _ _ _ _ hab, insertRec_nil]
  rfl

theorem insert_leaf_left [LinearOrder α] (fuel : Nat) (a b : α) (va vb : β) (hab : a < b) :
    insert (fuel + 2) (newNode b vb) a va =
      some (Tree.node (newNode a va) b vb (-1) 1 Tree.nil) := by
  simp only [insert, newNode, insertRec_lt _ _ _ _ _ _ _ _ _ hab, insertRec_nil]
  rfl

theorem insert_third_abc [LinearOrder α] (fuel : Nat) (a b c : α) (va vb vc : β)
    (hab : a < b) (hbc : b < c) :
    insert (fuel + 2) (Tree.node Tree.nil a va 1 1 (newNode b vb)) c vc =
      some (Tree.node (newNode a va) b vb 0 1 (newNode c vc)) := by
  simp only [insert, newNode, insertRec_gt _ _ _ _ _ _ _ _ _ (lt_trans hab hbc),
    insertRec_gt _ _ _ _ _ _ _ _ _ hbc, insertRec_nil]
  rfl

theorem insert_third_acb [LinearOrder α] (fuel : Nat) (a b c : α) (va vb vc : β)
    (hab : a < b) (hbc : b < c) :
    insert (fuel + 2) (Tree.node Tree.nil a va 1 1 (newNode c vc)) b vb =
      some (Tree.node (newNode a va) b vb 0 1 (newNode c vc)) := by
  simp only [insert, newNode, insertRec_gt _ _ _ _ _ _ _ _ _ hab,
    insertRec_lt _ _ _ _ _ _ _ _ _ hbc, insertRec_nil]
  rfl

theorem insert_third_bac [LinearOrder α] (fuel : Nat) (a b c : α) (va vb vc : β)
    (hbc : b < c) :
    insert (fuel + 2) (Tree.node (newNode a va) b vb (-1) 1 Tree.nil) c vc =
      some (Tree.node (newNode a va) b vb 0 1 (newNode c vc)) := by
  simp only [insert, newNode, insertRec_gt _ _ _ _ _ _ _ _ _ hbc, insertRec_nil]
  rfl

theorem insert_third_bca [LinearOrder α] (fuel : Nat) (a b c : α) (va vb vc : β)
    (hab : a < b) :
    insert (fuel + 2) (Tree.node Tree.nil b vb 1 1 (newNode c vc)) a va =
      some (Tree.node (newNode a va) b vb 0 1 (newNode c vc)) := by
  simp only [insert, newNode, insertRec_lt _ _ _ _ _ _ _ _ _ hab, insertRec_nil]
  rfl

theorem insert_third_cab [LinearOrder α] (fuel : Nat) (a b c : α) (va vb vc : β)
    (hab : a < b) (hbc : b < c) :
    insert (fuel + 2) (Tree.node (newNode a va) c vc (-1) 1 Tree.nil) b vb =
      some (Tree.node (newNode a va) b vb 0 1 (newNode c vc)) := by
  simp only [insert, newNode, insertRec_lt _ _ _ _ _ _ _ _ _ hbc,
    insertRec_gt _ _ _ _ _ _ _ _ _ hab, insertRec_nil]
  rfl

theorem insert_third_cba [LinearOrder α] (fuel : Nat) (a b c : α) (va vb vc : β)
    (hab : a < b) (hbc : b < c) :
    insert (fuel + 2) (Tree.node (newNode b vb) c vc (-1) 1 Tree.nil) a va =
      some (Tree.node (newNode a va) b vb 0 1 (newNode c vc)) := by
  simp only [insert, newNode, insertRec_lt _ _ _ _ _ _ _ _ _ (lt_trans hab hbc),
    insertRec_lt _ _ _ _ _ _ _ _ _ hab, insertRec_nil]
  rfl

theorem insert_empty [LinearOrder α] (fuel : Nat) (k : α) (v : β) :
    insert fuel (Tree.nil : Tree α β) k v = some (newNode k v) := rfl

/-- C13: for three keys `a < b < c` (with any values) and each of the six orders of
inserting them into the empty tree, the result is the tree with root `b`, whose left
child is the leaf `a` and whose right child is the leaf `c`. -/
theorem insert_three_keys [LinearOrder α] (fuel : Nat) (a b c : α) (va vb vc : β)
    (hab : a < b) (hbc : b < c) :
    runOps (fuel + 2) [(true, a, va), (true, b, vb), (true, c, vc)] Tree.nil =
      some (Tree.node (newNode a va) b vb 0 1 (newNode c vc)) ∧
    runOps (fuel + 2) [(true, a, va), (true, c, vc), (true, b, vb)] Tree.nil =
      some (Tree.node (newNode a va) b vb 0 1 (newNode c vc)) ∧
    runOps (fuel + 2) [(true, b, vb), (true, a, va), (true, c, vc)] Tree.nil =
      some (Tree.node (newNode a va) b vb 0 1 (newNode c vc)) ∧
    runOps (fuel + 2) [(true, b, vb), (true, c, vc), (true, a, va)] Tree.nil =
      some (Tree.node (newNode a va) b vb 0 1 (newNode c vc)) ∧
    runOps (fuel + 2) [(true, c, vc), (true, a, va), (true, b, vb)] Tree.nil =
      some (Tree.node (newNode a va) b vb 0 1 (newNode c vc)) ∧
    runOps (fuel + 2) [(true, c, vc), (true, b, vb), (true, a, va)] Tree.nil =
      some (Tree.node (newNode a va) b vb 0 1 (newNode c vc)) := by
  have hac : a < c := lt_trans hab hbc
  refine ⟨?_, ?_, ?_, ?_, ?_, ?_⟩
  · simp only [runOps, insert_empty, Option.some_bind, insert_leaf_right fuel a b va vb hab,
      insert_third_abc fuel a b c va vb vc hab hbc]
  · simp only [runOps, insert_empty, Option.some_bind, insert_leaf_right fuel a c va vc hac,
      insert_third_acb fuel a b c va vb vc hab hbc]
  · simp only [runOps, insert_empty, Option.some_bind, insert_leaf_left fuel a b va vb hab,
      insert_third_bac fuel a b c va vb vc hbc]
  · simp only [runOps, insert_empty, Option.some_bind, insert_leaf_right fuel b c vb vc hbc,
      insert_third_bca fuel a b c va vb vc hab]
  · simp only [runOps, insert_empty, Option.some_bind, insert_leaf_left fuel a c va vc hac,
      insert_third_cab fuel a b c va vb vc hab hbc]
  · simp only [runOps, insert_empty, Option.some_bind, insert_leaf_left fuel b c vb vc hbc,
      insert_third_cba fuel a b c va vb vc hab hbc]

theorem insert_three_keys_witness :
    (1 : Nat) < 2 ∧ (2 : Nat) < 3 ∧
    runOps 2 [(true, 3, 30), (true, 2, 20), (true, 1, 10)] Tree.nil =
      some (Tree.node (newNode 1 10) 2 20 0 1 (newNode 3 30)) ∧
    runOps 2 [(true, 1, 10), (true, 3, 30), (true, 2, 20)] Tree.nil =
      some (Tree.node (newNode 1 10) 2 20 0 1 (newNode 3 30)) :=
  ⟨by decide, by decide,
    (insert_three_keys 0 (1 : Nat) 2 3 (10 : Nat) 20 30 (by decide) (by decide)).2.2.2.2.2,
    (insert_three_keys 0 (1 : Nat) 2 3 (10 : Nat) 20 30 (by decide) (by decide)).2.1⟩

end AVLTree

namespace AVLTree

variable {α β : Type}

/-! ## Rotations and `rebalance` -/

/-- C18: for every node `x` with a right child, `rotateLeft(x)` returns the former
right child as the new subtree root and keeps the in-order sequence of (key, value)
pairs; for every node `y` with a left child, `rotateRight(y)` returns the former left
child and keeps the in-order sequence. -/
theorem rotate_keeps_inorder (a b c : Tree α β) (kx ky : α) (vx vy : β)
    (bx hx by_ hy : Int) :
    (∃ x' b' h',
      rotateLeft (Tree.node a kx vx bx hx (Tree.node b ky vy by_ hy c)) =
        some (Tree.node x' ky vy b' h' c) ∧
      inorder (Tree.node x' ky vy b' h' c) =
        inorder (Tree.node a kx vx bx hx (Tree.node b ky vy by_ hy c))) ∧
    (∃ y' b' h',
      rotateRight (Tree.node (Tree.node a kx vx bx hx b) ky vy by_ hy c) =
        some (Tree.node a kx vx b' h' y') ∧
      inorder (Tree.node a kx vx b' h' y') =
        inorder (Tree.node (Tree.node a kx vx bx hx b) ky vy by_ hy c)) := by
  constructor
  · exact ⟨_, _, _, rfl, by simp [updateHeight_node, inorder]⟩
  · exact ⟨_, _, _, rfl, by simp [updateHeight_node, inorder]⟩

/-- C17: for every node whose stored balance is `-2` or `+2`, whose stored height and
balance agree with its children, and whose two subtrees satisfy the AVL invariant,
`rebalance(n)` returns a subtree root below which every node (the root and `n`
included) has its balance in {-1,0,1}, equal to height(right) - height(left), with
correct stored heights; the in-order sequence is kept.  This covers the single and the
double rotations. -/
theorem rebalance_restores (l r : Tree α β) (k : α) (v : β) (b h : Int)
    (hl : AVLInv l) (hr : AVLInv r) (hh : h = max (height l) (height r) + 1)
    (hb : b = height r - height l) (h2 : b = -2 ∨ b = 2) :
    ∃ t', rebalance (Tree.node l k v b h r) = some t' ∧ HeightOk t' ∧ BalanceOk t' ∧
      inorder t' = inorder (Tree.node l k v b h r) := by
  obtain ⟨hl1, hl2⟩ := hl
  obtain ⟨hr1, hr2⟩ := hr
  have hL := height_ge l
  have hR := height_ge r
  have hu : updateHeight (Tree.node l k v b h r) = Tree.node l k v b h r := by
    rw [updateHeight_node, getHeight_eq hl1, getHeight_eq hr1, ← hh, ← hb]
    rcases h2 with e | e <;> rw [e] <;> rfl
  rcases h2 with e | e
  · cases l with
    | nil => simp only [height] at hb; omega
    | node ll lk lv lb lh lr =>
      have hbl := hl2
      simp only [BalanceOk] at hbl
      obtain ⟨t', e', ht1, ht2, _, ht4⟩ := rebalance_left_heavy k v b h lk lv lb lh hl1 hr1
        hbl.2.2.1 hbl.2.2.2.1 hbl.2.2.2.2 (by omega)
      rw [hu] at e'
      exact ⟨t', e', ht1, ht4 hl2 hr2, ht2⟩
  · cases r with
    | nil => simp only [height] at hb; omega
    | node rl rk rv rb rh rr =>
      have hbr := hr2
      simp only [BalanceOk] at hbr
      obtain ⟨t', e', ht1, ht2, _, ht4⟩ := rebalance_right_heavy k v b h rk rv rb rh hl1 hr1
        hbr.2.2.1 hbr.2.2.2.1 hbr.2.2.2.2 (by omega)
      rw [hu] at e'
      exact ⟨t', e', ht1, ht4 hl2 hr2, ht2⟩

theorem rebalance_restores_witness :
    AVLInv (Tree.nil : Tree Nat Nat) ∧ AVLInv tree12 ∧
    (2 : Int) = max (height (Tree.nil : Tree Nat Nat)) (height tree12) + 1 ∧
    (2 : Int) = height tree12 - height (Tree.nil : Tree Nat Nat) ∧
    ∃ t', rebalance (Tree.node Tree.nil 0 0 2 2 tree12) = some t' ∧ HeightOk t' ∧
      BalanceOk t' ∧ inorder t' = inorder (Tree.node Tree.nil 0 0 2 2 tree12) :=
  ⟨⟨trivial, trivial⟩, AVLInv_tree12, by decide, by decide,
    rebalance_restores Tree.nil tree12 0 0 2 2 ⟨trivial, trivial⟩ AVLInv_tree12 (by decide)
      (by decide) (Or.inr rfl)⟩

end AVLTree

namespace AVLTree

variable {α β : Type}

/-! ## `predecessor` -/

theorem descendRight_fst (t : Tree α β) :
    ∀ p : List (Crumb α β), (descendRight t p).1 = rightmost t := by
  induction t with
  | nil => intro p; rfl
  | node l k v b h r _ ihr =>
    intro p
    cases r with
    | nil => rfl
    | node rl rk rv rb rh rr =>
      simp only [descendRight, rightmost]
      exact ihr _

theorem descendRight_snd (t : Tree α β) :
    ∀ p : List (Crumb α β), ∃ q, (descendRight t p).2 = q ++ p ∧
      ∀ c ∈ q, ∃ l k v b h, c = Crumb.rightOf l k v b h := by
  induction t with
  | nil => intro p; exact ⟨[], rfl, by simp⟩
  | node l k v b h r _ ihr =>
    intro p
    cases r with
    | nil => exact ⟨[], rfl, by simp⟩
    | node rl rk rv rb rh rr =>
      obtain ⟨q, hq, hall⟩ := ihr (Crumb.rightOf l k v b h :: p)
      refine ⟨q ++ [Crumb.rightOf l k v b h], ?_, ?_⟩
      · simp only [descendRight, hq, List.append_assoc, List.singleton_append]
      · intro c hc
        rcases List.mem_append.mp hc with hc | hc
        · exact hall c hc
        · simp only [List.mem_singleton] at hc
          exact ⟨l, k, v, b, h, hc⟩

theorem rightmost_right_nil (t : Tree α β) :
    rightmost t = Tree.nil ∨ ∃ l k v b h, rightmost t = Tree.node l k v b h Tree.nil := by
  induction t with
  | nil => exact Or.inl rfl
  | node l k v b h r _ ihr =>
    cases r with
    | nil => exact Or.inr ⟨l, k, v, b, h, rfl⟩
    | node rl rk rv rb rh rr => simpa only [rightmost] using ihr

theorem climb_eq_nearestAncestor (p : List (Crumb α β)) :
    ∀ t : Tree α β, climb t p = nearestAncestor false t p := by
  induction p with
  | nil => intro t; rfl
  | cons c p ih =>
    intro t
    cases c with
    | leftOf k v b h r =>
      simp only [climb, nearestAncestor, ancestors, List.find?, ih]
      rfl
    | rightOf l k v b h =>
      simp only [climb, nearestAncestor, ancestors, List.find?]
      rfl

/-- C20 as stated fails: the node with key 3 in the tree with keys 1, 2, 3 has no left
subtree and lies in the right subtree of its only ancestor; `predecessor` returns that
ancestor (the root, key 2), while there is no ancestor for which the node is in the
left subtree.  For the node with key 1 it is the other way round. -/
theorem predecessor_not_left_ancestor :
    predecessor locThree = some (tree123, []) ∧
    nearestAncestor true locThree.1 locThree.2 = none ∧
    predecessor locOne = none ∧
    nearestAncestor true locOne.1 locOne.2 = some (tree123, []) := by
  decide

/-- C20 (amended): for every node of a tree with consistent parent links: if it has a
left subtree, `predecessor` returns the rightmost node of that left subtree (reached by
one step to the left child and then steps to right children only, and itself without
a right child); if it has no left subtree, `predecessor` returns the nearest ancestor
for which the node is in the right subtree, and null when there is no such ancestor. -/
theorem predecessor_spec (k : α) (v : β) (b h : Int) (r : Tree α β)
    (p : List (Crumb α β)) :
    (∀ ll lk lv lb lh lr, ∃ q a pk pv pb ph,
      predecessor (Tree.node (Tree.node ll lk lv lb lh lr) k v b h r, p) =
        some (rightmost (Tree.node ll lk lv lb lh lr), q ++ Crumb.leftOf k v b h r :: p) ∧
      (∀ c ∈ q, ∃ l' k' v' b' h', c = Crumb.rightOf l' k' v' b' h') ∧
      rightmost (Tree.node ll lk lv lb lh lr) = Tree.node a pk pv pb ph Tree.nil) ∧
    predecessor (Tree.node Tree.nil k v b h r, p) =
      nearestAncestor false (Tree.node Tree.nil k v b h r) p := by
  constructor
  · intro ll lk lv lb lh lr
    obtain ⟨q, hq, hall⟩ :=
      descendRight_snd (Tree.node ll lk lv lb lh lr) (Crumb.leftOf k v b h r :: p)
    obtain ⟨a, pk, pv, pb, ph, c, hc⟩ := rightmost_ne_nil ll lk lv lb lh lr
    have hnil : c = Tree.nil := by
      rcases rightmost_right_nil (Tree.node ll lk lv lb lh lr) with e | ⟨_, _, _, _, _, e⟩
      · rw [e] at hc; cases hc
      · rw [e] at hc; injection hc with _ _ _ _ _ e6; exact e6.symm
    refine ⟨q, a, pk, pv, pb, ph, ?_, hall, by rw [hc, hnil]⟩
    simp only [predecessor]
    rw [← hq, ← descendRight_fst (Tree.node ll lk lv lb lh lr) (Crumb.leftOf k v b h r :: p)]
  · simp only [predecessor]
    exact climb_eq_nearestAncestor p _

end AVLTree

namespace AVLTree

variable {α β : Type}

/-! ## Lookups of the other keys -/

theorem internalFind_sound [LinearOrder α] (t : Tree α β) (k : α) :
    ∀ {l : Tree α β} {k2 : α} {v : β} {b h : Int} {r : Tree α β},
      internalFind t k = Tree.node l k2 v b h r → k2 = k ∧ (k, v) ∈ inorder t := by
  induction t with
  | nil => intro l k2 v b h r e; simp [internalFind] at e
  | node tl tk tv tb th tr ihl ihr =>
    intro l k2 v b h r e
    simp only [internalFind] at e
    split at e
    · rename_i hk
      injection e with _ e2 e3 _ _ _
      subst e2; subst e3
      exact ⟨hk.symm, by rw [hk]; simp [inorder]⟩
    · split at e
      · obtain ⟨h1, h2⟩ := ihl e
        exact ⟨h1, by simp only [inorder, List.mem_append]; exact Or.inl h2⟩
      · obtain ⟨h1, h2⟩ := ihr e
        exact ⟨h1, by
          simp only [inorder, List.mem_append, List.mem_cons]; exact Or.inr (Or.inr h2)⟩

theorem lookup_of_mem [LinearOrder α] (t : Tree α β) (k : α) (v : β) (hbst : BST t)
    (hm : (k, v) ∈ inorder t) : lookup t k = some v := by
  obtain ⟨l, b, h, r, e⟩ := internalFind_of_mem t k v hbst hm
  simp only [lookup, e]

theorem lookup_of_not_mem [LinearOrder α] (t : Tree α β) (k : α) (hm : k ∉ keys t) :
    lookup t k = none := by
  simp only [lookup, internalFind_of_not_mem t k hm]

theorem mem_of_lookup [LinearOrder α] (t : Tree α β) (k : α) (v : β)
    (h : lookup t k = some v) : (k, v) ∈ inorder t := by
  unfold lookup at h
  cases e : internalFind t k with
  | nil => rw [e] at h; simp at h
  | node l k2 v2 b hh r =>
    rw [e] at h
    simp only [Option.some.injEq] at h
    subst h
    exact (internalFind_sound t k e).2

theorem insert_content [LinearOrder α] (fuel : Nat) (t t' : Tree α β) (k : α) (v : β)
    (hbst : BST t) (e : insert fuel t k v = some t') :
    BST t' ∧ ∀ x, x ∈ inorder t' ↔ x = (k, v) ∨ (x ∈ inorder t ∧ x.1 ≠ k) := by
  cases t with
  | nil =>
    simp only [insert, Option.some.injEq] at e
    subst e
    simp [newNode, BST, keys, inorder]
  | node l k' v' b h r =>
    simp only [insert, Option.map_eq_some'] at e
    obtain ⟨⟨f, t''⟩, e1, e2⟩ := e
    simp only at e2
    subst e2
    exact insertRec_content fuel k v _ hbst e1

/-- C15: on every tree satisfying the BST-order and AVL invariants, for every key `k`,
value `v` and every other key `k'`, `insert((k,v))` returns a tree in which the lookup
of `k'` gives what it gave before (absent stays absent, present stays present with
the same value); the stored keys are those of the tree together with `k`, each stored
once. -/
theorem insert_keeps_other_keys [LinearOrder α] (fuel : Nat) (t : Tree α β) (k : α) (v : β)
    (k' : α) (hbst : BST t) (havl : AVLInv t) (hne : k' ≠ k) :
    ∃ t', insert (fuel + 2) t k v = some t' ∧ lookup t' k' = lookup t k' ∧
      (∀ x, x ∈ keys t' ↔ x = k ∨ x ∈ keys t) ∧ (keys t').Nodup := by
  obtain ⟨t', e, _⟩ := insert_avl fuel t k v havl
  obtain ⟨hb', hm⟩ := insert_content _ t t' k v hbst e
  refine ⟨t', e, ?_, ?_, ?_⟩
  · cases hl : lookup t k' with
    | none =>
      apply lookup_of_not_mem
      intro hk
      obtain ⟨w, hw⟩ := exists_mem_inorder_of_mem_keys hk
      rcases (hm (k', w)).mp hw with e1 | ⟨e1, _⟩
      · simp only [Prod.mk.injEq] at e1; exact hne e1.1
      · rw [lookup_of_mem t k' w hbst e1] at hl; simp at hl
    | some w =>
      exact lookup_of_mem t' k' w hb' ((hm (k', w)).mpr (Or.inr ⟨mem_of_lookup t k' w hl, hne⟩))
  · intro x
    constructor
    · intro hx
      obtain ⟨w, hw⟩ := exists_mem_inorder_of_mem_keys hx
      rcases (hm (x, w)).mp hw with e1 | ⟨e1, _⟩
      · simp only [Prod.mk.injEq] at e1; exact Or.inl e1.1
      · exact Or.inr (mem_keys_of_mem_inorder e1)
    · rintro (e1 | e1)
      · rw [e1]; exact mem_keys_of_mem_inorder ((hm (k, v)).mpr (Or.inl rfl))
      · by_cases hxk : x = k
        · rw [hxk]; exact mem_keys_of_mem_inorder ((hm (k, v)).mpr (Or.inl rfl))
        · obtain ⟨w, hw⟩ := exists_mem_inorder_of_mem_keys e1
          exact mem_keys_of_mem_inorder ((hm (x, w)).mpr (Or.inr ⟨hw, hxk⟩))
  · exact ((BST_iff_pairwise t').mp hb').imp (fun h => ne_of_lt h)

theorem insert_keeps_other_keys_witness :
    BST tree12 ∧ AVLInv tree12 ∧ (1 : Nat) ≠ 3 ∧
    ∃ t', insert (0 + 2) tree12 3 30 = some t' ∧ lookup t' 1 = lookup tree12 1 ∧
      (∀ x, x ∈ keys t' ↔ x = 3 ∨ x ∈ keys tree12) ∧ (keys t').Nodup :=
  ⟨BST_tree12, AVLInv_tree12, by decide,
    insert_keeps_other_keys 0 tree12 3 30 1 BST_tree12 AVLInv_tree12 (by decide)⟩

end AVLTree

namespace AVLTree

variable {α β : Type}

/-! ## The walk after the first rebalance -/

/-- When the higher left child leans to one side, rebalancing lowers the subtree by
one. -/
theorem rebalance_left_heavy_height {ll lr r : Tree α β} (k : α) (v : β) (b h : Int)
    (lk : α) (lv : β) (lb lh : Int)
    (hl : HeightOk (Tree.node ll lk lv lb lh lr)) (hr : HeightOk r)
    (hlb : lb = height lr - height ll) (hlb1 : -1 ≤ lb) (hlb2 : lb ≤ 1) (hne : lb ≠ 0)
    (hd : height (Tree.node ll lk lv lb lh lr) = height r + 2) (t' : Tree α β)
    (e : rebalance (updateHeight (Tree.node (Tree.node ll lk lv lb lh lr) k v b h r)) = some t') :
    height t' = height r + 2 := by
  simp only [HeightOk] at hl
  obtain ⟨hll, hlr, hlh⟩ := hl
  simp only [height] at hd
  have hgr := getHeight_eq hr
  have hgll := getHeight_eq hll
  have hglr := getHeight_eq hlr
  have hR := height_ge r
  have hLL := height_ge ll
  have hLR := height_ge lr
  have hw : wrap8 (getHeight r - lh) = -2 := by rw [hgr]; unfold wrap8; omega
  simp only [updateHeight_node, getHeight_node, hw, rebalance] at e
  rw [if_pos trivial] at e
  by_cases hpos : lb > 0
  · cases lr with
    | nil => simp only [height] at hlb; omega
    | node lrl lrk lrv lrb lrh lrr =>
      simp only [HeightOk] at hlr
      obtain ⟨hlrl, hlrr, hlrh⟩ := hlr
      simp only [height] at hd hlb hLR hlh
      have hglrl := getHeight_eq hlrl
      have hglrr := getHeight_eq hlrr
      have hLRL := height_ge lrl
      have hLRR := height_ge lrr
      simp only [hpos, rotateRight, rotateLeft, updateHeight_node, getHeight_node,
        Option.some_bind, if_true, Option.some.injEq] at e
      subst e
      simp only [height]; omega
  · simp only [hpos, rotateRight, updateHeight_node, getHeight_node, if_false,
      Option.some.injEq] at e
    subst e
    simp only [height]; omega

/-- When the higher right child leans to one side, rebalancing lowers the subtree by
one. -/
theorem rebalance_right_heavy_height {l rl rr : Tree α β} (k : α) (v : β) (b h : Int)
    (rk : α) (rv : β) (rb rh : Int)
    (hl : HeightOk l) (hr : HeightOk (Tree.node rl rk rv rb rh rr))
    (hrb : rb = height rr - height rl) (hrb1 : -1 ≤ rb) (hrb2 : rb ≤ 1) (hne : rb ≠ 0)
    (hd : height (Tree.node rl rk rv rb rh rr) = height l + 2) (t' : Tree α β)
    (e : rebalance (updateHeight (Tree.node l k v b h (Tree.node rl rk rv rb rh rr))) = some t') :
    height t' = height l + 2 := by
  simp only [HeightOk] at hr
  obtain ⟨hrl, hrr, hrh⟩ := hr
  simp only [height] at hd
  have hgl := getHeight_eq hl
  have hgrl := getHeight_eq hrl
  have hgrr := getHeight_eq hrr
  have hL := height_ge l
  have hRL := height_ge rl
  have hRR := height_ge rr
  have hw : wrap8 (rh - getHeight l) = 2 := by rw [hgl]; unfold wrap8; omega
  simp only [updateHeight_node, getHeight_node, hw, rebalance] at e
  rw [if_neg (by decide), if_pos trivial] at e
  by_cases hneg : rb < 0
  · cases rl with
    | nil => simp only [height] at hrb; omega
    | node rll rlk rlv rlb rlh rlr =>
      simp only [HeightOk] at hrl
      obtain ⟨hrll, hrlr, hrlh⟩ := hrl
      simp only [height] at hd hrb hRL hrh
      have hgrll := getHeight_eq hrll
      have hgrlr := getHeight_eq hrlr
      have hRLL := height_ge rll
      have hRLR := height_ge rlr
      simp only [hneg, rotateRight, rotateLeft, updateHeight_node, getHeight_node,
        Option.some_bind, if_true, Option.some.injEq] at e
      subst e
      simp only [height]; omega
  · simp only [hneg, rotateLeft, updateHeight_node, getHeight_node, if_false,
      Option.some.injEq] at e
    subst e
    simp only [height]; omega

end AVLTree

namespace AVLTree

variable {α β : Type}

/-- One ancestor of the insertion walk in both variants: in range both recompute the
node and walk on; out of range both return the rebalanced subtree. -/
theorem insertFix_agree (fuel : Nat) {l r : Tree α β} (k : α) (v : β) (b h : Int)
    (hl : AVLInv l) (hr : AVLInv r)
    (hd1 : height r - height l ≤ 2) (hd2 : -2 ≤ height r - height l) :
    ∃ s t', insertFix (fuel + 2) (Tree.node l k v b h r) = some t' ∧
      insertStopFix (Tree.node l k v b h r) = some (s, t') ∧ AVLInv t' ∧
      ((s = WalkState.walking ∧ height t' = max (height l) (height r) + 1 ∧
          getBalance t' = height r - height l ∧
          -1 ≤ height r - height l ∧ height r - height l ≤ 1) ∨
        (s = WalkState.stopped ∧ (height r - height l = 2 ∨ height r - height l = -2) ∧
          rebalance (updateHeight (Tree.node l k v b h r)) = some t')) := by
  obtain ⟨t', e, ht', _, _⟩ := insertFix_spec fuel k v b h hl hr hd1 hd2
  have hgl := getHeight_eq hl.1
  have hgr := getHeight_eq hr.1
  have hw : wrap8 (height r - height l) = height r - height l :=
    wrap8_of_small (by omega) (by omega)
  have hbal : getBalance (updateHeight (Tree.node l k v b h r)) = height r - height l := by
    rw [updateHeight_node, hgl, hgr, hw]; rfl
  by_cases hin : -1 ≤ height r - height l ∧ height r - height l ≤ 1
  · have e1 : insertFix (fuel + 2) (Tree.node l k v b h r) =
        some (updateHeight (Tree.node l k v b h r)) := by
      rw [insertFix]
      simp only [hbal]
      rw [if_neg (by omega)]
    have e2 : insertStopFix (Tree.node l k v b h r) =
        some (WalkState.walking, updateHeight (Tree.node l k v b h r)) := by
      unfold insertStopFix
      simp only [hbal]
      rw [if_neg (by omega)]
    rw [e1] at e
    simp only [Option.some.injEq] at e
    subst e
    exact ⟨WalkState.walking, _, e1, e2, ht',
      Or.inl ⟨rfl, by rw [height_updateHeight]; rfl, hbal, hin.1, hin.2⟩⟩
  · have hout : height r - height l < -1 ∨ height r - height l > 1 := by omega
    have h22 : height r - height l = -2 ∨ height r - height l = 2 := by omega
    cases hreb : rebalance (updateHeight (Tree.node l k v b h r)) with
    | none =>
      rw [insertFix] at e
      simp only [hbal, hreb] at e
      rw [if_pos hout] at e
      simp at e
    | some t'' =>
      have e1 := e
      rw [insertFix] at e1
      simp only [hbal, hreb, Option.some_bind] at e1
      rw [if_pos hout, if_pos h22] at e1
      have e2 : insertStopFix (Tree.node l k v b h r) = some (WalkState.stopped, t'') := by
        unfold insertStopFix
        simp only [hbal, hreb]
        rw [if_pos hout]
        rfl
      -- the re-visit of the rebalanced root changes nothing
      have hok : AVLInv t'' := by
        rcases h22 with e3 | e3
        · cases l with
          | nil => have := height_ge r; simp only [height] at e3; omega
          | node ll lk lv lb lh lr =>
            have hbl := hl.2
            simp only [BalanceOk] at hbl
            obtain ⟨t3, e4, ht1, _, _, ht4⟩ := rebalance_left_heavy k v b h lk lv lb lh hl.1
              hr.1 hbl.2.2.1 hbl.2.2.2.1 hbl.2.2.2.2 (by omega)
            rw [hreb] at e4
            simp only [Option.some.injEq] at e4
            subst e4
            exact ⟨ht1, ht4 hl.2 hr.2⟩
        · cases r with
          | nil => have := height_ge l; simp only [height] at e3; omega
          | node rl rk rv rb rh rr =>
            have hbr := hr.2
            simp only [BalanceOk] at hbr
            obtain ⟨t3, e4, ht1, _, _, ht4⟩ := rebalance_right_heavy k v b h rk rv rb rh hl.1
              hr.1 hbr.2.2.1 hbr.2.2.2.1 hbr.2.2.2.2 (by omega)
            rw [hreb] at e4
            simp only [Option.some.injEq] at e4
            subst e4
            exact ⟨ht1, ht4 hl.2 hr.2⟩
      rw [insertFix_of_ok fuel hok.1 hok.2] at e1
      simp only [Option.some.injEq] at e1
      subst e1
      exact ⟨WalkState.stopped, _, e, e2, ht', Or.inr ⟨rfl, by omega, rfl⟩⟩

end AVLTree

namespace AVLTree

variable {α β : Type}

/-- Descent and walk of `insert` and of its stopping variant return the same tree; once
the stopping variant has stopped, the height of the subtree is the one before the
insertion. -/
theorem insertRec_stop_agree [LinearOrder α] (fuel : Nat) (k : α) (v : β) (t : Tree α β)
    (ht : AVLInv t) :
    ∃ f s t', insertRec (fuel + 2) k v t = some (f, t') ∧
      insertStopRec k v t = some (s, t') ∧ AVLInv t' ∧
      (s = WalkState.found → f = false ∧ height t' = height t) ∧
      (s = WalkState.stopped → f = true ∧ height t' = height t) ∧
      (s = WalkState.walking → f = true ∧
        (height t' = height t ∨
          (height t' = height t + 1 ∧ (t = Tree.nil ∨ getBalance t' ≠ 0)))) := by
  induction t with
  | nil =>
    refine ⟨true, WalkState.walking, newNode k v, rfl, rfl, AVLInv_newNode k v, ?_, ?_, ?_⟩
    · intro h; cases h
    · intro h; cases h
    · intro _; exact ⟨rfl, Or.inr ⟨by simp [newNode, height], Or.inl rfl⟩⟩
  | node l k' v' b h r ihl ihr =>
    obtain ⟨⟨hl1, hr1, hh⟩, ⟨hl2, hr2, hb, hb1, hb2⟩⟩ := ht
    have hL := height_ge l
    have hR := height_ge r
    by_cases hlt : k < k'
    · obtain ⟨f, s, l', e1, e2, hl', pf, ps, pw⟩ := ihl ⟨hl1, hl2⟩
      cases s with
      | found =>
        obtain ⟨hf, hhl⟩ := pf rfl
        subst hf
        refine ⟨false, WalkState.found, Tree.node l' k' v' b h r, ?_, ?_, ?_, ?_, ?_, ?_⟩
        · simp only [insertRec, if_pos hlt, e1]
        · simp only [insertStopRec, if_pos hlt, e2]
        · exact ⟨⟨hl'.1, hr1, by rw [hhl]; exact hh⟩, ⟨hl'.2, hr2, by rw [hhl]; exact hb, hb1, hb2⟩⟩
        · intro _; exact ⟨rfl, by simp only [height, hhl]⟩
        · intro h; cases h
        · intro h; cases h
      | stopped =>
        obtain ⟨hf, hhl⟩ := ps rfl
        subst hf
        have hok : AVLInv (Tree.node l' k' v' b h r) :=
          ⟨⟨hl'.1, hr1, by rw [hhl]; exact hh⟩, ⟨hl'.2, hr2, by rw [hhl]; exact hb, hb1, hb2⟩⟩
        refine ⟨true, WalkState.stopped, Tree.node l' k' v' b h r, ?_, ?_, hok, ?_, ?_, ?_⟩
        · simp only [insertRec, if_pos hlt, e1, insertFix_of_ok (fuel + 1) hok.1 hok.2,
            Option.map_some']
        · simp only [insertStopRec, if_pos hlt, e2]
        · intro h; cases h
        · intro _; exact ⟨rfl, by simp only [height, hhl]⟩
        · intro h; cases h
      | walking =>
        obtain ⟨hf, hw⟩ := pw rfl
        subst hf
        obtain ⟨s2, t2, g1, g2, ht2, hcase⟩ := insertFix_agree fuel k' v' b h hl' ⟨hr1, hr2⟩
          (by omega) (by omega)
        refine ⟨true, s2, t2, ?_, ?_, ht2, ?_, ?_, ?_⟩
        · simp only [insertRec, if_pos hlt, e1, g1, Option.map_some']
        · simp only [insertStopRec, if_pos hlt, e2, g2]
        · intro hs; rcases hcase with ⟨c, _⟩ | ⟨c, _⟩ <;> rw [c] at hs <;> cases hs
        · intro hs
          rcases hcase with ⟨c, _⟩ | ⟨_, c2, c3⟩
          · rw [c] at hs; cases hs
          · refine ⟨rfl, ?_⟩
            have hd : height r - height l' = -2 := by omega
            have hgrow : height l' = height l + 1 := by omega
            have hbal : getBalance l' ≠ 0 := by
              rcases hw with hw | ⟨_, hw | hw⟩
              · omega
              · rw [hw] at hgrow; simp only [height] at hgrow; omega
              · exact hw
            cases l' with
            | nil => simp only [height] at hd; omega
            | node ll lk lv lb lh lr =>
              have hbl := hl'.2
              simp only [BalanceOk] at hbl
              have := rebalance_left_heavy_height k' v' b h lk lv lb lh hl'.1 hr1 hbl.2.2.1
                hbl.2.2.2.1 hbl.2.2.2.2 hbal (by omega) t2 c3
              simp only [height] at hgrow ⊢
              omega
        · intro hs
          rcases hcase with ⟨_, c1, c2, c3, c4⟩ | ⟨c, _⟩
          · refine ⟨rfl, ?_⟩
            simp only [height]
            by_cases hsame : height t2 = max (height l) (height r) + 1
            · exact Or.inl hsame
            · exact Or.inr ⟨by omega, Or.inr (by omega)⟩
          · rw [c] at hs; cases hs
    · by_cases hgt : k > k'
      · obtain ⟨f, s, r', e1, e2, hr', pf, ps, pw⟩ := ihr ⟨hr1, hr2⟩
        cases s with
        | found =>
          obtain ⟨hf, hhr⟩ := pf rfl
          subst hf
          refine ⟨false, WalkState.found, Tree.node l k' v' b h r', ?_, ?_, ?_, ?_, ?_, ?_⟩
          · simp only [insertRec, if_neg hlt, if_pos hgt, e1]
          · simp only [insertStopRec, if_neg hlt, if_pos hgt, e2]
          · exact ⟨⟨hl1, hr'.1, by rw [hhr]; exact hh⟩,
              ⟨hl2, hr'.2, by rw [hhr]; exact hb, hb1, hb2⟩⟩
          · intro _; exact ⟨rfl, by simp only [height, hhr]⟩
          · intro h; cases h
          · intro h; cases h
        | stopped =>
          obtain ⟨hf, hhr⟩ := ps rfl
          subst hf
          have hok : AVLInv (Tree.node l k' v' b h r') :=
            ⟨⟨hl1, hr'.1, by rw [hhr]; exact hh⟩, ⟨hl2, hr'.2, by rw [hhr]; exact hb, hb1, hb2⟩⟩
          refine ⟨true, WalkState.stopped, Tree.node l k' v' b h r', ?_, ?_, hok, ?_, ?_, ?_⟩
          · simp only [insertRec, if_neg hlt, if_pos hgt, e1,
              insertFix_of_ok (fuel + 1) hok.1 hok.2, Option.map_some']
          · simp only [insertStopRec, if_neg hlt, if_pos hgt, e2]
          · intro h; cases h
          · intro _; exact ⟨rfl, by simp only [height, hhr]⟩
          · intro h; cases h
        | walking =>
          obtain ⟨hf, hw⟩ := pw rfl
          subst hf
          obtain ⟨s2, t2, g1, g2, ht2, hcase⟩ := insertFix_agree fuel k' v' b h ⟨hl1, hl2⟩ hr'
            (by omega) (by omega)
          refine ⟨true, s2, t2, ?_, ?_, ht2, ?_, ?_, ?_⟩
          · simp only [insertRec, if_neg hlt, if_pos hgt, e1, g1, Option.map_some']
          · simp only [insertStopRec, if_neg hlt, if_pos hgt, e2, g2]
          · intro hs; rcases hcase with ⟨c, _⟩ | ⟨c, _⟩ <;> rw [c] at hs <;> cases hs
          · intro hs
            rcases hcase with ⟨c, _⟩ | ⟨_, c2, c3⟩
            · rw [c] at hs; cases hs
            · refine ⟨rfl, ?_⟩
              have hd : height r' - height l = 2 := by omega
              have hgrow : height r' = height r + 1 := by omega
              have hbal : getBalance r' ≠ 0 := by
                rcases hw with hw | ⟨_, hw | hw⟩
                · omega
                · rw [hw] at hgrow; simp only [height] at hgrow; omega
                · exact hw
              cases r' with
              | nil => simp only [height] at hd; omega
              | node rl rk rv rb rh rr =>
                have hbr := hr'.2
                simp only [BalanceOk] at hbr
                have := rebalance_right_heavy_height k' v' b h rk rv rb rh hl1 hr'.1 hbr.2.2.1
                  hbr.2.2.2.1 hbr.2.2.2.2 hbal (by omega) t2 c3
                simp only [height] at hgrow ⊢
                omega
          · intro hs
            rcases hcase with ⟨_, c1, c2, c3, c4⟩ | ⟨c, _⟩
            · refine ⟨rfl, ?_⟩
              simp only [height]
              by_cases hsame : height t2 = max (height l) (height r) + 1
              · exact Or.inl hsame
              · exact Or.inr ⟨by omega, Or.inr (by omega)⟩
            · rw [c] at hs; cases hs
      · refine ⟨false, WalkState.found, Tree.node l k' v b h r, ?_, ?_,
          ⟨⟨hl1, hr1, hh⟩, ⟨hl2, hr2, hb, hb1, hb2⟩⟩, ?_, ?_, ?_⟩
        · simp only [insertRec, if_neg hlt, if_neg hgt]
        · simp only [insertStopRec, if_neg hlt, if_neg hgt]
        · intro _; exact ⟨rfl, by simp only [height]⟩
        · intro h; cases h
        · intro h; cases h

/-- C19: on every tree satisfying the AVL invariant, `insert`, whose upward walk goes
on to the root and re-checks every ancestor after a rotation, returns the same tree
(same shape, same key and value at every position, even the same stored balances and
heights) as the variant that stops the walk right after the first rebalance: the
remaining steps of the walk change nothing. -/
theorem insert_eq_insertStop [LinearOrder α] (fuel : Nat) (t : Tree α β) (k : α) (v : β)
    (havl : AVLInv t) :
    ∃ t', insert (fuel + 2) t k v = some t' ∧ insertStop t k v = some t' := by
  cases t with
  | nil => exact ⟨newNode k v, rfl, rfl⟩
  | node l k' v' b h r =>
    obtain ⟨f, s, t', e1, e2, _⟩ := insertRec_stop_agree fuel k v (Tree.node l k' v' b h r) havl
    exact ⟨t', by simp only [insert, e1, Option.map_some'],
      by simp only [insertStop, e2, Option.map_some']⟩

theorem insert_eq_insertStop_witness :
    AVLInv tree12 ∧
    ∃ t', insert (0 + 2) tree12 3 30 = some t' ∧ insertStop tree12 3 30 = some t' :=
  ⟨AVLInv_tree12, insert_eq_insertStop 0 tree12 3 30 AVLInv_tree12⟩

end AVLTree

namespace AVLTree

variable {α β : Type}

/-! ## The walk of `remove` -/

/-- One ancestor of the removal walk: with both subtrees satisfying the AVL invariant
and heights at most two apart, `updateHeight` followed by `rebalance` returns a tree
that satisfies it, with the same in-order sequence. -/
theorem rebalance_step {l r : Tree α β} (k : α) (v : β) (b h : Int)
    (hl : AVLInv l) (hr : AVLInv r)
    (hd1 : height r - height l ≤ 2) (hd2 : -2 ≤ height r - height l) :
    ∃ t', rebalance (updateHeight (Tree.node l k v b h r)) = some t' ∧ AVLInv t' ∧
      inorder t' = inorder l ++ (k, v) :: inorder r ∧
      (height t' = max (height l) (height r) + 1 ∨
        (height t' = max (height l) (height r) ∧
          (height r - height l = 2 ∨ height r - height l = -2))) := by
  obtain ⟨hl1, hl2⟩ := hl
  obtain ⟨hr1, hr2⟩ := hr
  have hgl := getHeight_eq hl1
  have hgr := getHeight_eq hr1
  have hL := height_ge l
  have hR := height_ge r
  by_cases hin : -1 ≤ height r - height l ∧ height r - height l ≤ 1
  · have hw : wrap8 (height r - height l) = height r - height l :=
      wrap8_of_small (by omega) (by omega)
    refine ⟨updateHeight (Tree.node l k v b h r), ?_, ?_, ?_, ?_⟩
    · rw [updateHeight_node, hgl, hgr, hw]
      exact rebalance_of_in_range _ _ _ _ _ _ (by omega) (by omega)
    · simp only [updateHeight_node, hgl, hgr, hw]
      exact ⟨⟨hl1, hr1, rfl⟩, ⟨hl2, hr2, rfl, hin.1, hin.2⟩⟩
    · simp [updateHeight_node, inorder]
    · left; simp [updateHeight_node, height]
  · by_cases h2 : height r - height l = 2
    · cases r with
      | nil => simp only [height] at h2; omega
      | node rl rk rv rb rh rr =>
        have hbr := hr2
        simp only [BalanceOk] at hbr
        obtain ⟨t', e, ht1, ht2, ht3, ht4⟩ := rebalance_right_heavy k v b h rk rv rb rh hl1 hr1
          hbr.2.2.1 hbr.2.2.2.1 hbr.2.2.2.2 (by omega)
        exact ⟨t', e, ⟨ht1, ht4 hl2 hr2⟩, ht2, by omega⟩
    · have h3 : height r - height l = -2 := by omega
      cases l with
      | nil => simp only [height] at h3; omega
      | node ll lk lv lb lh lr =>
        have hbl := hl2
        simp only [BalanceOk] at hbl
        obtain ⟨t', e, ht1, ht2, ht3, ht4⟩ := rebalance_left_heavy k v b h lk lv lb lh hl1 hr1
          hbl.2.2.1 hbl.2.2.2.1 hbl.2.2.2.2 (by omega)
        exact ⟨t', e, ⟨ht1, ht4 hl2 hr2⟩, ht2, by omega⟩

theorem unlinkRightmost_setRightmost (k : α) (v : β) (b h : Int) (t : Tree α β) :
    unlinkRightmost (setRightmost k v b h t) = unlinkRightmost t := by
  induction t with
  | nil => rfl
  | node l k' v' b' h' r _ ihr =>
    cases r with
    | nil => rfl
    | node rl rk rv rb rh rr =>
      have e : ∃ a ka va ba ha c, setRightmost k v b h (Tree.node rl rk rv rb rh rr) =
          Tree.node a ka va ba ha c := by
        cases rr with
        | nil => exact ⟨_, _, _, _, _, _, rfl⟩
        | node _ _ _ _ _ _ => exact ⟨_, _, _, _, _, _, rfl⟩
      obtain ⟨a, ka, va, ba, ha, c, e⟩ := e
      simp only [setRightmost]
      rw [e, unlinkRightmost, ← e, ihr]
      rfl

/-- Unlinking the rightmost node of a non-empty tree that satisfies the AVL invariant:
the result satisfies it, is at most one lower, and its in-order sequence is the old
one without the last pair, which is the pair of the rightmost node. -/
theorem unlinkRightmost_spec (t : Tree α β) (ht : AVLInv t) :
    ∀ l k v b h r, t = Tree.node l k v b h r →
    ∃ t' a pk pv pb ph, unlinkRightmost t = some t' ∧ AVLInv t' ∧
      height t' ≤ height t ∧ height t ≤ height t' + 1 ∧
      rightmost t = Tree.node a pk pv pb ph Tree.nil ∧
      inorder t = inorder t' ++ [(pk, pv)] := by
  induction t with
  | nil => intro l k v b h r e; cases e
  | node l0 k0 v0 b0 h0 r0 _ ihr =>
    intro l k v b h r _
    obtain ⟨⟨hl1, hr1, hh⟩, ⟨hl2, hr2, hb, hb1, hb2⟩⟩ := ht
    have hL := height_ge l0
    cases r0 with
    | nil =>
      refine ⟨l0, l0, k0, v0, b0, h0, rfl, ⟨hl1, hl2⟩, ?_, ?_, rfl, by simp [inorder]⟩
      · simp only [height]; omega
      · simp only [height] at hb ⊢; omega
    | node rl rk rv rb rh rr =>
      obtain ⟨r', a, pk, pv, pb, ph, e, hr', hle1, hle2, hrm, hin⟩ :=
        ihr ⟨hr1, hr2⟩ rl rk rv rb rh rr rfl
      obtain ⟨t', e', ht', hin', hht⟩ := rebalance_step k0 v0 b0 h0 ⟨hl1, hl2⟩ hr'
        (by omega) (by omega)
      refine ⟨t', a, pk, pv, pb, ph, ?_, ht', ?_, ?_, ?_, ?_⟩
      · simp only [unlinkRightmost, e, e']
      · simp only [height] at hle1 hle2 hb ⊢; omega
      · simp only [height] at hle1 hle2 hb ⊢; omega
      · simp only [rightmost]; exact hrm
      · rw [hin']
        simp only [inorder] at hin ⊢
        rw [hin]
        simp

end AVLTree

namespace AVLTree

variable {α β : Type}

/-- Descent, splice and walk of `remove` on a tree satisfying the BST-order and AVL
invariants: the result satisfies the AVL invariant and is at most one lower; when the
key was found, the in-order sequence is the old one without the pair of the key, and
otherwise the tree is returned as it was. -/
theorem removeRec_spec [LinearOrder α] (k : α) (t : Tree α β) (hbst : BST t)
    (havl : AVLInv t) :
    ∃ f t', removeRec k t = some (f, t') ∧ AVLInv t' ∧
      height t' ≤ height t ∧ height t ≤ height t' + 1 ∧
      (f = false → t' = t ∧ k ∉ keys t) ∧
      (f = true → ∃ v pre post, inorder t = pre ++ (k, v) :: post ∧
        inorder t' = pre ++ post) := by
  induction t with
  | nil =>
    exact ⟨false, Tree.nil, rfl, havl, le_refl _, by omega, fun _ => ⟨rfl, by simp [keys]⟩,
      (fun h => by cases h)⟩
  | node l k' v b h r ihl ihr =>
    have havl' := havl
    obtain ⟨hl, hr, h1, h2⟩ := hbst
    obtain ⟨⟨hl1, hr1, hh⟩, ⟨hl2, hr2, hb, hb1, hb2⟩⟩ := havl'
    have hL := height_ge l
    have hR := height_ge r
    have hT : height (Tree.node l k' v b h r) = max (height l) (height r) + 1 := rfl
    have hnil : height (Tree.nil : Tree α β) = -1 := rfl
    by_cases heq : k = k'
    · subst heq
      cases l with
      | nil =>
        refine ⟨true, r, ?_, ⟨hr1, hr2⟩, ?_, ?_, (fun h => by cases h),
          fun _ => ⟨v, [], inorder r, by simp [inorder], by simp⟩⟩
        · simp only [removeRec, if_true, Tree.isNil, Bool.not_true, Bool.false_and,
            Bool.false_eq_true, if_false]
        · omega
        · omega
      | node ll lk lv lb lh lr =>
        cases r with
        | nil =>
          refine ⟨true, Tree.node ll lk lv lb lh lr, ?_, ⟨hl1, hl2⟩, ?_, ?_, (fun h => by cases h),
            fun _ => ⟨v, inorder (Tree.node ll lk lv lb lh lr), [], by simp [inorder], by simp⟩⟩
          · simp only [removeRec, if_true, Tree.isNil, Bool.not_true, Bool.and_false,
              Bool.false_eq_true, if_false, Bool.not_false]
          · omega
          · omega
        | node rl rk rv rb rh rr =>
          obtain ⟨l', a, pk, pv, pb, ph, e, hl', hle1, hle2, hrm, hin⟩ :=
            unlinkRightmost_spec _ ⟨hl1, hl2⟩ ll lk lv lb lh lr rfl
          obtain ⟨t', e', ht', hin', hht⟩ := rebalance_step pk pv b ph hl' ⟨hr1, hr2⟩
            (by omega) (by omega)
          refine ⟨true, t', ?_, ht', ?_, ?_, (fun h => by cases h), fun _ =>
            ⟨v, inorder l' ++ [(pk, pv)], inorder (Tree.node rl rk rv rb rh rr), ?_, ?_⟩⟩
          · simp only [removeRec, if_true, Tree.isNil, Bool.not_false, Bool.and_self, nodeSwap,
              hrm, unlinkRightmost_setRightmost, e, e', Option.map_some']
          · omega
          · omega
          · simp only [inorder] at hin ⊢
            rw [hin]
          · rw [hin']; simp
    · by_cases hlt : k < k'
      · obtain ⟨f, l', e, hl', hle1, hle2, hf, ht⟩ := ihl hl ⟨hl1, hl2⟩
        cases f with
        | false =>
          refine ⟨false, Tree.node l k' v b h r, ?_, havl, le_refl _, by omega,
            fun _ => ⟨rfl, ?_⟩, (fun h => by cases h)⟩
          · simp only [removeRec, if_neg heq, if_pos hlt, e]
          · simp only [keys, List.mem_append, List.mem_cons, not_or]
            exact ⟨(hf rfl).2, heq, fun hk => absurd (h2 k hk) (not_lt_of_gt hlt)⟩
        | true =>
          obtain ⟨t', e', ht', hin', hht⟩ := rebalance_step k' v b h hl' ⟨hr1, hr2⟩
            (by omega) (by omega)
          obtain ⟨vk, pre, post, hp1, hp2⟩ := ht rfl
          refine ⟨true, t', ?_, ht', ?_, ?_, (fun h => by cases h), fun _ =>
            ⟨vk, pre, post ++ (k', v) :: inorder r, ?_, ?_⟩⟩
          · simp only [removeRec, if_neg heq, if_pos hlt, e, e', Option.map_some']
          · simp only [height]; omega
          · simp only [height]; omega
          · simp only [inorder, hp1]; simp
          · rw [hin', hp2]; simp
      · obtain ⟨f, r', e, hr', hle1, hle2, hf, ht⟩ := ihr hr ⟨hr1, hr2⟩
        have hgt : k' < k := lt_of_le_of_ne (not_lt.mp hlt) (Ne.symm heq)
        cases f with
        | false =>
          refine ⟨false, Tree.node l k' v b h r, ?_, havl, le_refl _, by omega,
            fun _ => ⟨rfl, ?_⟩, (fun h => by cases h)⟩
          · simp only [removeRec, if_neg heq, if_neg hlt, e]
          · simp only [keys, List.mem_append, List.mem_cons, not_or]
            exact ⟨fun hk => absurd (h1 k hk) (not_lt_of_gt hgt), heq, (hf rfl).2⟩
        | true =>
          obtain ⟨t', e', ht', hin', hht⟩ := rebalance_step k' v b h ⟨hl1, hl2⟩ hr'
            (by omega) (by omega)
          obtain ⟨vk, pre, post, hp1, hp2⟩ := ht rfl
          refine ⟨true, t', ?_, ht', ?_, ?_, (fun h => by cases h), fun _ =>
            ⟨vk, inorder l ++ (k', v) :: pre, post, ?_, ?_⟩⟩
          · simp only [removeRec, if_neg heq, if_neg hlt, e, e', Option.map_some']
          · simp only [height]; omega
          · simp only [height]; omega
          · simp only [inorder, hp1]; simp
          · rw [hin', hp2]; simp

end AVLTree

namespace AVLTree

variable {α β : Type}

theorem size_eq_length (t : Tree α β) : size t = (inorder t).length := by
  induction t with
  | nil => rfl
  | node l k v b h r ihl ihr => simp only [size, inorder, List.length_append, List.length_cons, ihl, ihr]; omega

/-- Taking one pair out of the in-order sequence of a BST-ordered tree. -/
theorem removed_content [LinearOrder α] {t t' : Tree α β} {k : α} {v : β}
    {pre post : List (α × β)} (hbst : BST t) (h1 : inorder t = pre ++ (k, v) :: post)
    (h2 : inorder t' = pre ++ post) :
    BST t' ∧ k ∉ keys t' ∧ (∀ x, x ∈ inorder t' ↔ x ∈ inorder t ∧ x.1 ≠ k) ∧
      size t' + 1 = size t := by
  have hp := (BST_iff_pairwise t).mp hbst
  rw [keys_eq_map, h1, List.map_append, List.map_cons, List.pairwise_append] at hp
  obtain ⟨hp1, hp2, hp3⟩ := hp
  rw [List.pairwise_cons] at hp2
  obtain ⟨hp4, hp5⟩ := hp2
  have hpre : ∀ x ∈ pre, x.1 < k := fun x hx =>
    hp3 x.1 (List.mem_map_of_mem _ hx) k (List.mem_cons_self _ _)
  have hpost : ∀ x ∈ post, k < x.1 := fun x hx => hp4 x.1 (List.mem_map_of_mem _ hx)
  refine ⟨?_, ?_, ?_, ?_⟩
  · rw [BST_iff_pairwise, keys_eq_map, h2, List.map_append, List.pairwise_append]
    exact ⟨hp1, hp5, fun a ha b hb => hp3 a ha b (List.mem_cons_of_mem _ hb)⟩
  · rw [keys_eq_map, h2]
    intro hk
    obtain ⟨x, hx, hxk⟩ := List.mem_map.mp hk
    rcases List.mem_append.mp hx with hx | hx
    · exact absurd (hpre x hx) (by rw [hxk]; exact lt_irrefl k)
    · exact absurd (hpost x hx) (by rw [hxk]; exact lt_irrefl k)
  · intro x
    rw [h1, h2]
    simp only [List.mem_append, List.mem_cons]
    constructor
    · rintro (hx | hx)
      · exact ⟨Or.inl hx, ne_of_lt (hpre x hx)⟩
      · exact ⟨Or.inr (Or.inr hx), ne_of_gt (hpost x hx)⟩
    · rintro ⟨hx | hx | hx, hne⟩
      · exact Or.inl hx
      · exact absurd (by rw [hx]) hne
      · exact Or.inr hx
  · rw [size_eq_length, size_eq_length, h1, h2]
    simp only [List.length_append, List.length_cons]
    omega

/-- `remove` on a tree satisfying the BST-order and AVL invariants: it returns a tree
satisfying both, that no longer stores the key and stores every other pair as before;
a stored key takes exactly one node with it. -/
theorem remove_spec [LinearOrder α] (t : Tree α β) (k : α) (hbst : BST t) (havl : AVLInv t) :
    ∃ t', remove t k = some t' ∧ AVLInv t' ∧ BST t' ∧ k ∉ keys t' ∧
      (∀ x, x ∈ inorder t' ↔ x ∈ inorder t ∧ x.1 ≠ k) ∧
      (k ∈ keys t → size t' + 1 = size t) := by
  obtain ⟨f, t', e, ht', _, _, hf, htr⟩ := removeRec_spec k t hbst havl
  refine ⟨t', by simp only [remove, e, Option.map_some'], ht', ?_⟩
  cases f with
  | false =>
    obtain ⟨e1, e2⟩ := hf rfl
    subst e1
    refine ⟨hbst, e2, ?_, fun hk => absurd hk e2⟩
    intro x
    constructor
    · intro hx
      exact ⟨hx, fun hxk => e2 (hxk ▸ mem_keys_of_mem_inorder hx)⟩
    · exact fun hx => hx.1
  | true =>
    obtain ⟨v, pre, post, h1, h2⟩ := htr rfl
    obtain ⟨c1, c2, c3, c4⟩ := removed_content hbst h1 h2
    exact ⟨c1, c2, c3, fun _ => c4⟩

end AVLTree

namespace AVLTree

variable {α β : Type}

/-! ## Properties of `remove` on stored keys -/

/-- C2: on every tree satisfying the BST-order and AVL invariants and for every key
(absent, or present with zero, one or two children), `remove(k)` returns a tree in
which every node has its balance in {-1,0,1}, equal to height(right) - height(left);
the stored heights are again the real heights. -/
theorem remove_balanced [LinearOrder α] (t : Tree α β) (k : α) (hbst : BST t)
    (havl : AVLInv t) :
    ∃ t', remove t k = some t' ∧ BalanceOk t' ∧ HeightOk t' := by
  obtain ⟨t', e, ht', _⟩ := remove_spec t k hbst havl
  exact ⟨t', e, ht'.2, ht'.1⟩

theorem BST_tree1234 : BST tree1234 := by
  simp [tree1234, newNode, BST, keys]

theorem AVLInv_tree1234 : AVLInv tree1234 := by
  simp [AVLInv, tree1234, newNode, HeightOk, BalanceOk, height]

theorem remove_balanced_witness :
    BST tree1234 ∧ AVLInv tree1234 ∧
      ∃ t', remove tree1234 2 = some t' ∧ BalanceOk t' ∧ HeightOk t' :=
  ⟨BST_tree1234, AVLInv_tree1234, remove_balanced tree1234 2 BST_tree1234 AVLInv_tree1234⟩

/-- Scenario D of the specification: after inserting 1..7, `remove(1)` and then
`remove(2)` each return a tree satisfying the balance invariant. -/
theorem remove_one_two_balanced :
    ∃ t7 t6 t5, insertAll 2 [1, 2, 3, 4, 5, 6, 7] Tree.nil = some t7 ∧
      remove t7 1 = some t6 ∧ BalanceOk t6 ∧ remove t6 2 = some t5 ∧ BalanceOk t5 := by
  refine ⟨Tree.node (Tree.node (newNode 1 0) 2 0 0 1 (newNode 3 0)) 4 0 0 2
      (Tree.node (newNode 5 0) 6 0 0 1 (newNode 7 0)),
    Tree.node (Tree.node Tree.nil 2 0 1 1 (newNode 3 0)) 4 0 0 2
      (Tree.node (newNode 5 0) 6 0 0 1 (newNode 7 0)),
    Tree.node (newNode 3 0) 4 0 1 2 (Tree.node (newNode 5 0) 6 0 0 1 (newNode 7 0)),
    by decide, by decide, ?_, by decide, ?_⟩ <;>
  simp [newNode, BalanceOk, height]

/-- C4: on every tree satisfying the BST-order and AVL invariants, `remove(k)` returns
a tree that satisfies the BST-order invariant (every key of a left subtree strictly
less, every key of a right subtree strictly greater than the node's key), also when
the node of `k` has two children and is swapped with its predecessor. -/
theorem remove_bst [LinearOrder α] (t : Tree α β) (k : α) (hbst : BST t) (havl : AVLInv t) :
    ∃ t', remove t k = some t' ∧ BST t' := by
  obtain ⟨t', e, _, hb, _⟩ := remove_spec t k hbst havl
  exact ⟨t', e, hb⟩

theorem remove_bst_witness :
    BST tree123 ∧ AVLInv tree123 ∧ ∃ t', remove tree123 2 = some t' ∧ BST t' :=
  ⟨BST_tree123, AVLInv_tree123, remove_bst tree123 2 BST_tree123 AVLInv_tree123⟩

/-- C6: on every tree satisfying the BST-order and AVL invariants, after `remove(k)`
the lookup `internalFind(k)` returns null, whether the node of `k` was a leaf, had one
child, had two children or was the root (or was absent). -/
theorem remove_then_find [LinearOrder α] (t : Tree α β) (k : α) (hbst : BST t)
    (havl : AVLInv t) :
    ∃ t', remove t k = some t' ∧ internalFind t' k = Tree.nil := by
  obtain ⟨t', e, _, _, hk, _⟩ := remove_spec t k hbst havl
  exact ⟨t', e, internalFind_of_not_mem t' k hk⟩

theorem remove_then_find_witness :
    BST tree123 ∧ AVLInv tree123 ∧
      ∃ t', remove tree123 2 = some t' ∧ internalFind t' 2 = Tree.nil :=
  ⟨BST_tree123, AVLInv_tree123, remove_then_find tree123 2 BST_tree123 AVLInv_tree123⟩

/-- C16: on every tree satisfying the BST-order and AVL invariants, for every stored
key `k` and every other key `k'`, `remove(k)` returns a tree in which the lookup of
`k'` gives what it gave before (same presence, same value); the stored keys are those
of the tree without `k`, and exactly one node is gone. -/
theorem remove_keeps_other_keys [LinearOrder α] (t : Tree α β) (k k' : α) (hbst : BST t)
    (havl : AVLInv t) (hk : k ∈ keys t) (hne : k' ≠ k) :
    ∃ t', remove t k = some t' ∧ lookup t' k' = lookup t k' ∧
      (∀ x, x ∈ keys t' ↔ x ∈ keys t ∧ x ≠ k) ∧ size t' + 1 = size t := by
  obtain ⟨t', e, _, hb', _, hm, hs⟩ := remove_spec t k hbst havl
  refine ⟨t', e, ?_, ?_, hs hk⟩
  · cases hl : lookup t k' with
    | none =>
      apply lookup_of_not_mem
      intro hk'
      obtain ⟨w, hw⟩ := exists_mem_inorder_of_mem_keys hk'
      rw [lookup_of_mem t k' w hbst ((hm (k', w)).mp hw).1] at hl
      simp at hl
    | some w =>
      exact lookup_of_mem t' k' w hb' ((hm (k', w)).mpr ⟨mem_of_lookup t k' w hl, hne⟩)
  · intro x
    constructor
    · intro hx
      obtain ⟨w, hw⟩ := exists_mem_inorder_of_mem_keys hx
      obtain ⟨h1, h2⟩ := (hm (x, w)).mp hw
      exact ⟨mem_keys_of_mem_inorder h1, h2⟩
    · rintro ⟨hx, hxk⟩
      obtain ⟨w, hw⟩ := exists_mem_inorder_of_mem_keys hx
      exact mem_keys_of_mem_inorder ((hm (x, w)).mpr ⟨hw, hxk⟩)

theorem remove_keeps_other_keys_witness :
    BST tree123 ∧ AVLInv tree123 ∧ 2 ∈ keys tree123 ∧ (1 : Nat) ≠ 2 ∧
    ∃ t', remove tree123 2 = some t' ∧ lookup t' 1 = lookup tree123 1 ∧
      (∀ x, x ∈ keys t' ↔ x ∈ keys tree123 ∧ x ≠ 2) ∧ size t' + 1 = size tree123 :=
  ⟨BST_tree123, AVLInv_tree123, by decide, by decide,
    remove_keeps_other_keys tree123 2 1 BST_tree123 AVLInv_tree123 (by decide) (by decide)⟩

end AVLTree

namespace AVLTree

variable {α β : Type}

/-! ## The height of reachable trees -/

/-- A tree whose balances are in range has at least `Fib(h + 3) - 1` nodes, `h` its
height (stated with `n = h + 1`). -/
theorem fib_le_size (t : Tree α β) (hb : BalanceOk t) :
    ∀ n : Nat, height t + 1 = (n : Int) → Nat.fib (n + 2) ≤ size t + 1 := by
  induction t with
  | nil =>
    intro n hn
    simp only [height] at hn
    have : n = 0 := by omega
    subst this
    simp [size]
  | node l k v b h r ihl ihr =>
    intro n hn
    obtain ⟨hl, hr, hbal, hb1, hb2⟩ := hb
    have hL := height_ge l
    have hR := height_ge r
    simp only [height] at hn
    have h1 := ihl hl (height l + 1).toNat (by omega)
    have h2 := ihr hr (height r + 1).toNat (by omega)
    obtain ⟨m, rfl⟩ : ∃ m, n = m + 1 := ⟨n - 1, by omega⟩
    have hfib : Nat.fib (m + 1 + 2) = Nat.fib (m + 1) + Nat.fib (m + 2) := Nat.fib_add_two
    rw [hfib]
    simp only [size]
    by_cases hc : height r ≤ height l
    · have e1 : (height l + 1).toNat = m := by omega
      rw [e1] at h1
      have h3 : Nat.fib (m + 1) ≤ Nat.fib ((height r + 1).toNat + 2) :=
        Nat.fib_mono (by omega)
      omega
    · have e1 : (height r + 1).toNat = m := by omega
      rw [e1] at h2
      have h3 : Nat.fib (m + 1) ≤ Nat.fib ((height l + 1).toNat + 2) :=
        Nat.fib_mono (by omega)
      omega

/-- Every sequence of `insert` and `remove` operations, started on a tree satisfying
the BST-order and AVL invariants, returns a tree satisfying them. -/
theorem runOps_inv [LinearOrder α] (fuel : Nat) (ops : List (Bool × α × β)) :
    ∀ t : Tree α β, BST t → AVLInv t →
      ∃ t', runOps (fuel + 2) ops t = some t' ∧ BST t' ∧ AVLInv t' := by
  induction ops with
  | nil => intro t hb ha; exact ⟨t, rfl, hb, ha⟩
  | cons op ops ih =>
    intro t hb ha
    obtain ⟨f, k, v⟩ := op
    cases f with
    | true =>
      obtain ⟨t1, e, ha1⟩ := insert_avl fuel t k v ha
      obtain ⟨hb1, _⟩ := insert_content _ t t1 k v hb e
      obtain ⟨t', e', h'⟩ := ih t1 hb1 ha1
      exact ⟨t', by simp only [runOps, e, Option.some_bind, e'], h'⟩
    | false =>
      obtain ⟨t1, e, ha1, hb1, _⟩ := remove_spec t k hb ha
      obtain ⟨t', e', h'⟩ := ih t1 hb1 ha1
      exact ⟨t', by simp only [runOps, e, Option.some_bind, e'], h'⟩

theorem two_pow_64_lt_fib : 2 ^ 64 < Nat.fib 94 := by norm_num [Nat.fib_add_two]

set_option exponentiation.threshold 4000 in
theorem pow_le_fib_pow : ∀ h < 91, 2 ^ (25 * h) ≤ (Nat.fib (h + 3) + 1) ^ 36 := by decide

/-- From the Fibonacci bound to the logarithmic one, for a tree that fits into a 64-bit
address space. -/
theorem log_bound_of_fib (h n : Nat) (hf : Nat.fib (h + 3) ≤ n + 1) (hn : n < 2 ^ 64) :
    (h : ℝ) ≤ 1.44 * Real.logb 2 ((n : ℝ) + 2) := by
  have hh : h < 91 := by
    by_contra hcon
    have h1 : Nat.fib 94 ≤ Nat.fib (h + 3) := Nat.fib_mono (by omega)
    have h2 := two_pow_64_lt_fib
    have h3 : 2 ^ 64 < n + 1 := lt_of_lt_of_le h2 (le_trans h1 hf)
    exact absurd hn (not_lt.mpr (Nat.le_of_lt_succ h3))
  have hpow : 2 ^ (25 * h) ≤ (n + 2) ^ 36 :=
    le_trans (pow_le_fib_pow h hh) (Nat.pow_le_pow_left (Nat.succ_le_succ hf) 36)
  have hpowR : (2 : ℝ) ^ (25 * h) ≤ ((n : ℝ) + 2) ^ 36 := by exact_mod_cast hpow
  have hx0 : (0 : ℝ) ≤ (2 : ℝ) ^ ((25 * (h : ℝ)) / 36) := Real.rpow_nonneg (by norm_num) _
  have hx36 : ((2 : ℝ) ^ ((25 * (h : ℝ)) / 36)) ^ (36 : ℕ) = (2 : ℝ) ^ (25 * h) := by
    rw [← Real.rpow_natCast, ← Real.rpow_mul (by norm_num)]
    rw [show (25 * (h : ℝ)) / 36 * ((36 : ℕ) : ℝ) = ((25 * h : ℕ) : ℝ) by push_cast; ring]
    rw [Real.rpow_natCast]
  have hn0 : (0 : ℝ) ≤ (n : ℝ) + 2 := add_nonneg (Nat.cast_nonneg n) (by norm_num)
  have hn1 : (0 : ℝ) < (n : ℝ) + 2 := add_pos_of_nonneg_of_pos (Nat.cast_nonneg n) (by norm_num)
  have hle : (2 : ℝ) ^ ((25 * (h : ℝ)) / 36) ≤ (n : ℝ) + 2 := by
    by_contra hcon
    have hlt := pow_lt_pow_left₀ (not_le.mp hcon) hn0 (show (36 : ℕ) ≠ 0 by norm_num)
    rw [hx36] at hlt
    exact absurd hpowR (not_le.mpr hlt)
  have hlog : (25 * (h : ℝ)) / 36 ≤ Real.logb 2 ((n : ℝ) + 2) :=
    (Real.le_logb_iff_rpow_le (by norm_num) hn1).mpr hle
  linarith

/-- C9: every sequence of `insert` and `remove` operations on the empty tree returns a
tree, and if that tree has `n ≥ 1` nodes and height `h`, then `Fib(h + 3) ≤ n + 1` (the
exact integer form of the AVL height bound) and, the tree fitting into a 64-bit address
space (`n < 2^64`), `h ≤ 1.44 * log2(n + 2)`. -/
theorem reachable_height_bound [LinearOrder α] (fuel : Nat) (ops : List (Bool × α × β)) :
    (∃ t, runOps (fuel + 2) ops Tree.nil = some t) ∧
    ∀ t, runOps (fuel + 2) ops Tree.nil = some t → 1 ≤ size t →
      Nat.fib ((height t).toNat + 3) ≤ size t + 1 ∧
      (size t < 2 ^ 64 → ((height t : Int) : ℝ) ≤ 1.44 * Real.logb 2 ((size t : ℝ) + 2)) := by
  obtain ⟨t0, e0, _, ha0⟩ := runOps_inv fuel ops (Tree.nil : Tree α β) trivial ⟨trivial, trivial⟩
  refine ⟨⟨t0, e0⟩, ?_⟩
  intro t e hs
  rw [e0] at e
  simp only [Option.some.injEq] at e
  subst e
  have hpos : 0 ≤ height t0 := by
    cases t0 with
    | nil => simp [size] at hs
    | node l k v b h r => exact height_node_nonneg l k v b h r
  have hfib : Nat.fib ((height t0).toNat + 3) ≤ size t0 + 1 :=
    fib_le_size t0 ha0.2 ((height t0).toNat + 1) (by omega)
  refine ⟨hfib, fun hlt => ?_⟩
  have := log_bound_of_fib (height t0).toNat (size t0) hfib hlt
  have hc : ((height t0 : Int) : ℝ) = (((height t0).toNat : Nat) : ℝ) := by
    have h1 : (((height t0).toNat : Nat) : Int) = height t0 := Int.toNat_of_nonneg hpos
    rw [← Int.cast_natCast, h1]
  rw [hc]
  exact this

theorem reachable_height_bound_witness :
    runOps (0 + 2) [(true, 2, 20), (true, 1, 10), (true, 3, 30), (false, 2, 0)]
      (Tree.nil : Tree Nat Nat) = some (Tree.node Tree.nil 1 10 1 1 (newNode 3 30)) ∧
    1 ≤ size (Tree.node Tree.nil 1 10 1 1 (newNode 3 30) : Tree Nat Nat) ∧
    (Nat.fib ((height (Tree.node Tree.nil 1 10 1 1 (newNode 3 30) : Tree Nat Nat)).toNat + 3) ≤
        size (Tree.node Tree.nil 1 10 1 1 (newNode 3 30) : Tree Nat Nat) + 1 ∧
      (size (Tree.node Tree.nil 1 10 1 1 (newNode 3 30) : Tree Nat Nat) < 2 ^ 64 →
        ((height (Tree.node Tree.nil 1 10 1 1 (newNode 3 30) : Tree Nat Nat) : Int) : ℝ) ≤
          1.44 * Real.logb 2
            ((size (Tree.node Tree.nil 1 10 1 1 (newNode 3 30) : Tree Nat Nat) : ℝ) + 2))) :=
  ⟨by decide, by decide,
    (reachable_height_bound 0 [(true, 2, 20), (true, 1, 10), (true, 3, 30), (false, 2, 0)]).2
      (Tree.node Tree.nil 1 10 1 1 (newNode 3 30)) (by decide) (by decide)⟩

end AVLTree
